import Mathlib

/-!
Verification of the `data` package's indexing & search core.

This file gives a shallow embedding of the in-process hybrid retrieval index
(`Index`, `Search`, `GetByID`, `GetByType`, `ClearIndex`, `getEmbedding`,
`cosineSimilarity`, `rankEntry`, and the bounded min-heap selection) and proves
the specification claims about it.

Modelling conventions:
* Go `float64` values (embedding components, scores) are modelled as exact
  rationals `ℚ`; `math.Sqrt` is abstracted as an explicit function parameter
  `f : ℚ → ℚ` threaded into `cosineSimilarity` — none of the verified claims
  depend on the values the square root takes, so every theorem quantifies over
  it.
* `crypto/sha256` hex digests are abstracted as an explicit function parameter
  `hashFn : String → String`; every theorem quantifies over it.
* The external embedding provider (an HTTP endpoint) is modelled as an oracle
  `provider : String → ProviderResp` returning either a network-level error, a
  non-200 status, a malformed body, or an embedding vector.
* The process-wide mutable state (`index` map, `embeddingCache` map,
  `embeddingsEnabled` atomic flag) is an explicit `MuState` record threaded
  through the operations; maps are association lists keyed by strings.
* Each effectful operation reports, besides its new state, whether it made a
  network attempt, whether the circuit-breaker "disabled" log fired, and
  whether it scheduled persistence.
* Go `container/heap` over the source's `resultHeap` (whose `Less i j` is
  `Score i < Score j`) is represented through its documented API contract: the
  heap's contents kept in ascending score order, so that index 0 is the
  minimum, `heap.Push` inserts preserving order, and `heap.Pop` removes the
  minimum.
* Strings are Lean `String`s; `strings.ToLower` is `goToLower`,
  `strings.TrimSpace` is `goTrim`, `strings.Contains` is `goContains`
  below, and the byte-based truncation `content[:500]` (`goTake`) is modelled
  as a 500-character prefix (all claims involve ASCII text, where bytes and
  characters coincide).
-/

namespace Mu

/-- Model of Go `strings.ToLower` (character-wise lowering over the string's
characters; Go lowers full Unicode, the claims involve ASCII only). -/
def goToLower (s : String) : String :=
  ⟨s.data.map Char.toLower⟩

/-- Model of Go `strings.TrimSpace`: drop leading and trailing whitespace. -/
def goTrim (s : String) : String :=
  ⟨((s.data.dropWhile Char.isWhitespace).reverse.dropWhile
      Char.isWhitespace).reverse⟩

/-- Model of the Go slice `s[:n]` (with `n` at most the length), as used on
`content` by `Index`: the first `n` characters. -/
def goTake (s : String) (n : ℕ) : String :=
  ⟨s.data.take n⟩

/-- Model of Go `strings.Contains` via an explicit list scan:
`isPrefixList needle hay` is `true` iff `needle` is a prefix of `hay`. -/
def isPrefixList : List Char → List Char → Bool
  | [], _ => true
  | _ :: _, [] => false
  | a :: as, b :: bs => a == b && isPrefixList as bs

/-- `containsList needle hay` is `true` iff `needle` occurs contiguously in
`hay` (the empty needle occurs in every list). -/
def containsList (needle : List Char) : List Char → Bool
  | [] => needle.isEmpty
  | c :: rest => isPrefixList needle (c :: rest) || containsList needle rest

/-- Model of Go `strings.Contains s sub`. -/
def goContains (s sub : String) : Bool :=
  containsList sub.data s.data

/-- Association-list lookup, modelling Go map read `m[key]`. -/
def lookupAssoc {α : Type} : List (String × α) → String → Option α
  | [], _ => none
  | (k, v) :: rest, key => if k = key then some v else lookupAssoc rest key

/-- Association-list update, modelling Go map write `m[key] = v`. -/
def updateAssoc {α : Type} : List (String × α) → String → α → List (String × α)
  | [], key, v => [(key, v)]
  | (k, w) :: rest, key, v =>
      if k = key then (k, v) :: rest else (k, w) :: updateAssoc rest key v

/-- A typed rendering of the values stored in the `map[string]interface{}`
metadata maps (the spec's recommended typed sum), so that the deep-equality
comparison used by the dedup check is structural equality. -/
inductive MetaVal : Type where
  | str (s : String)
  | num (q : ℚ)
  | flag (b : Bool)
deriving DecidableEq, Repr

/-- A metadata map; `Option` distinguishes a `nil` Go map (`none`) from an
empty one (`some []`), since `reflect.DeepEqual` distinguishes them. -/
abbrev MetaMap := List (String × MetaVal)

/-- `IndexEntry` represents a searchable piece of content (source struct
`IndexEntry`; the Go field `Type` is spelled `EntryType` because `Type` is a
Lean keyword, and `IndexedAt` timestamps are abstract naturals). -/
structure IndexEntry : Type where
  ID : String
  EntryType : String
  Title : String
  Content : String
  TitleLower : String
  ContentLower : String
  Metadata : Option MetaMap
  Embedding : List ℚ
  EmbeddingHash : String
  IndexedAt : ℕ
deriving DecidableEq, Repr

/-- `SearchResult` represents a search hit with relevance score. -/
structure SearchResult : Type where
  Entry : IndexEntry
  Score : ℚ
deriving DecidableEq, Repr

/-- The process-wide mutable state of the `data` package: the `index` map, the
`embeddingCache` map, and the `embeddingsEnabled` atomic flag. -/
structure MuState : Type where
  index : List (String × IndexEntry)
  embeddingCache : List (String × List ℚ)
  embeddingsEnabled : Bool
deriving DecidableEq, Repr

/-- Pairwise dot product Σ aᵢ·bᵢ over the common length (the Go loop runs over
equal-length vectors only). -/
def dotList (a b : List ℚ) : ℚ :=
  (List.zipWith (· * ·) a b).sum

/-- `cosineSimilarity` calculates cosine similarity between two vectors
(source function `cosineSimilarity`): mismatched lengths and zero norms yield
`0.0`; otherwise the dot product divided by the product of the square roots of
the self-dot-products, with `math.Sqrt` abstracted as `f`. -/
def cosineSimilarity (f : ℚ → ℚ) (a b : List ℚ) : ℚ :=
  if a.length ≠ b.length then 0
  else
    let dotProduct := dotList a b
    let normA := dotList a a
    let normB := dotList b b
    if normA = 0 ∨ normB = 0 then 0
    else dotProduct / (f normA * f normB)

/-- The pure lexical score of an entry against a lower-cased query: `3.0` for
a title substring hit, else `1.0` for a content substring hit, else `0`
(the `switch` in the source's `rankEntry`). -/
def lexScore (entry : IndexEntry) (queryLower : String) : ℚ :=
  if goContains entry.TitleLower queryLower = true then 3
  else if goContains entry.ContentLower queryLower = true then 1
  else 0

/-- `rankEntry` (source function `rankEntry`): the dual-gated vector score when
vector search is active, falling back to lexical scoring when the vector path
produces no (nonzero) score. -/
def rankEntry (f : ℚ → ℚ) (entry : IndexEntry) (queryLower : String)
    (queryEmbedding : List ℚ) (useVectors : Bool) : ℚ :=
  let score : ℚ :=
    if useVectors = true ∧ 0 < entry.Embedding.length ∧
        queryEmbedding.length = entry.Embedding.length then
      let similarity := cosineSimilarity f queryEmbedding entry.Embedding
      if 0.3 < similarity then
        if goContains entry.TitleLower queryLower = true ∨
            goContains entry.ContentLower queryLower = true ∨
            0.6 ≤ similarity then
          similarity
        else 0
      else 0
    else 0
  if score = 0 then lexScore entry queryLower else score

/-- Insertion into the heap contents, preserving ascending score order: this is
`heap.Push` on the source's `resultHeap` through the `container/heap` contract
(new elements with a score strictly below an existing one go before it). -/
def heapPush : List SearchResult → SearchResult → List SearchResult
  | [], r => [r]
  | x :: rest, r =>
      if r.Score < x.Score then r :: x :: rest else x :: heapPush rest r

/-- The candidate scan of `Search` (source lines building the bounded min-heap):
push scoring candidates while the heap holds fewer than `lim` results, and
afterwards replace the minimum (`(*h)[0]`, the head) whenever a candidate's
score strictly exceeds it (`heap.Pop` then `heap.Push`). -/
def searchFold (f : ℚ → ℚ) (queryLower : String) (queryEmbedding : List ℚ)
    (useVectors : Bool) (lim : ℕ) :
    List IndexEntry → List SearchResult → List SearchResult
  | [], h => h
  | e :: rest, h =>
      let score := rankEntry f e queryLower queryEmbedding useVectors
      if score ≤ 0 then
        searchFold f queryLower queryEmbedding useVectors lim rest h
      else if h.length < lim then
        searchFold f queryLower queryEmbedding useVectors lim rest
          (heapPush h ⟨e, score⟩)
      else
        match h with
        | [] => searchFold f queryLower queryEmbedding useVectors lim rest h
        | m :: t =>
            if m.Score < score then
              searchFold f queryLower queryEmbedding useVectors lim rest
                (heapPush t ⟨e, score⟩)
            else
              searchFold f queryLower queryEmbedding useVectors lim rest h

/-- The body of `Search` from the snapshot on: the empty-corpus short circuit,
the limit adjustment (`limit ≤ 0` or `limit > len(snapshot)` becomes the
snapshot size), the heap scan, and the drain (popping the min-heap fills the
result array back to front, i.e. descending — the reverse of the ascending
heap contents), projected to entries. -/
def searchSnapshot (f : ℚ → ℚ) (snapshot : List IndexEntry) (queryLower : String)
    (queryEmbedding : List ℚ) (useVectors : Bool) (limit : Int) :
    List IndexEntry :=
  if snapshot.length = 0 then []
  else
    let lim : ℕ :=
      if limit ≤ 0 ∨ (snapshot.length : Int) < limit then snapshot.length
      else limit.toNat
    let h := searchFold f queryLower queryEmbedding useVectors lim snapshot []
    if h.length = 0 then [] else (h.reverse).map SearchResult.Entry

/-- The outcome of one HTTP request to the embedding provider: a network-level
(connection) error, a non-200 status, a response body that fails to decode, or
a decoded embedding vector. -/
inductive ProviderResp : Type where
  | netErr
  | badStatus
  | badBody
  | ok (embedding : List ℚ)

/-- `disableEmbeddings` (source function `disableEmbeddings`): a compare-and-swap
from `true` to `false` on the process-wide flag; the returned boolean is whether
the CAS succeeded, i.e. whether the disable transition fired and logged. -/
def disableEmbeddings (st : MuState) : MuState × Bool :=
  (⟨st.index, st.embeddingCache, false⟩, st.embeddingsEnabled)

/-- The result of a `getEmbedding` call: the embedding (`none` models a Go
error return), the state after the call, whether a network request was
attempted, and whether the circuit-breaker disable log fired. -/
structure EmbedResult : Type where
  value : Option (List ℚ)
  state : MuState
  attempted : Bool
  logged : Bool
deriving Repr

/-- The cache probe inside `getEmbedding`: a cached vector is served only when
present and non-empty. -/
def embedCacheHit (st : MuState) (key : String) : Option (List ℚ) :=
  match lookupAssoc st.embeddingCache key with
  | some cached => if 0 < cached.length then some cached else none
  | none => none

/-- `getEmbedding` (source function `getEmbedding`): refuses immediately when
embeddings are disabled or the text is whitespace-only, serves non-empty cached
vectors, and otherwise performs the HTTP request — a network-level error trips
the circuit breaker (CAS + log), a non-200 status or malformed body is an
ordinary error, and a decoded vector is cached and returned. -/
def getEmbedding (provider : String → ProviderResp) (st : MuState)
    (text : String) : EmbedResult :=
  if st.embeddingsEnabled = false then ⟨none, st, false, false⟩
  else if goTrim text = "" then ⟨none, st, false, false⟩
  else
    let key := goTrim text
    match embedCacheHit st key with
    | some cached => ⟨some cached, st, false, false⟩
    | none =>
        match provider text with
        | .netErr =>
            let d := disableEmbeddings st
            ⟨none, d.1, true, d.2⟩
        | .badStatus => ⟨none, st, true, false⟩
        | .badBody => ⟨none, st, true, false⟩
        | .ok v =>
            ⟨some v, ⟨st.index, updateAssoc st.embeddingCache key v,
              st.embeddingsEnabled⟩, true, false⟩

/-- The embedding source text built by `Index`: the title, joined with a single
space to the first up-to-500 characters of content when content is non-empty,
just the title otherwise. -/
def textToEmbed (title content : String) : String :=
  if 0 < content.length then title ++ " " ++ goTake content 500 else title

/-- The result of an `Index` call: the state after the call, whether a network
request was attempted, whether the circuit-breaker disable log fired, and
whether persistence was scheduled. -/
structure IndexResult : Type where
  state : MuState
  attempted : Bool
  logged : Bool
  persistScheduled : Bool
deriving Repr

/-- The part of `Index` after the dedup short circuit: build the new entry
(with lower-cased shadow fields), compute the embedding source text and its
hash, reuse the existing embedding when the stored hash matches and an
embedding is present, otherwise call `getEmbedding` (an error leaves the
embedding empty), attach embedding and hash only when non-empty, store the
entry, and schedule persistence. -/
def indexStore (hashFn : String → String) (provider : String → ProviderResp)
    (st : MuState) (existing : Option IndexEntry)
    (id entryType title content : String) (metadata : Option MetaMap)
    (now : ℕ) : IndexResult :=
  let text := textToEmbed title content
  let embedHash := hashFn text
  let base : IndexEntry :=
    { ID := id, EntryType := entryType, Title := title,
      TitleLower := goToLower title, Content := content,
      ContentLower := goToLower content, Metadata := metadata,
      Embedding := [], EmbeddingHash := "", IndexedAt := now }
  let reuse : Option (List ℚ) :=
    match existing with
    | some ex =>
        if ex.EmbeddingHash = embedHash ∧ 0 < ex.Embedding.length then
          some ex.Embedding
        else none
    | none => none
  match reuse with
  | some emb =>
      let entry :=
        if 0 < emb.length then
          { base with Embedding := emb, EmbeddingHash := embedHash }
        else base
      ⟨⟨updateAssoc st.index id entry, st.embeddingCache,
        st.embeddingsEnabled⟩, false, false, true⟩
  | none =>
      let r := getEmbedding provider st text
      let emb := r.value.getD []
      let entry :=
        if 0 < emb.length then
          { base with Embedding := emb, EmbeddingHash := embedHash }
        else base
      ⟨⟨updateAssoc r.state.index id entry, r.state.embeddingCache,
        r.state.embeddingsEnabled⟩, r.attempted, r.logged, true⟩

/-- `Index` (source function `Index`): adds or updates an entry in the search
index; when the existing entry under `id` has the same type, title, content and
(deeply equal) metadata and already carries an embedding, the call is a no-op. -/
def Index (hashFn : String → String) (provider : String → ProviderResp)
    (st : MuState) (id entryType title content : String)
    (metadata : Option MetaMap) (now : ℕ) : IndexResult :=
  match lookupAssoc st.index id with
  | some ex =>
      if ex.EntryType = entryType ∧ ex.Title = title ∧ ex.Content = content ∧
          ex.Metadata = metadata ∧ 0 < ex.Embedding.length then
        ⟨st, false, false, false⟩
      else
        indexStore hashFn provider st (some ex) id entryType title content
          metadata now
  | none =>
      indexStore hashFn provider st none id entryType title content metadata now

/-- `GetByID` retrieves an entry by its exact ID. -/
def GetByID (st : MuState) (id : String) : Option IndexEntry :=
  lookupAssoc st.index id

/-- Insertion by descending `IndexedAt` (the `sort.Slice` comparator of
`GetByType` puts newest first). -/
def insertByTime (e : IndexEntry) : List IndexEntry → List IndexEntry
  | [] => [e]
  | x :: rest =>
      if x.IndexedAt < e.IndexedAt then e :: x :: rest
      else x :: insertByTime e rest

/-- Sort by `IndexedAt` descending (newest first). -/
def sortByTimeDesc : List IndexEntry → List IndexEntry
  | [] => []
  | e :: rest => insertByTime e (sortByTimeDesc rest)

/-- `GetByType` returns all entries of a specific type, newest first, truncated
to `limit` when `0 < limit`. -/
def GetByType (st : MuState) (entryType : String) (limit : Int) :
    List IndexEntry :=
  let entries :=
    (st.index.map Prod.snd).filter (fun e => e.EntryType = entryType)
  let sorted := sortByTimeDesc entries
  if 0 < limit ∧ (limit : Int) < (sorted.length : Int) then
    sorted.take limit.toNat
  else sorted

/-- `ClearIndex` removes all entries from the index and schedules persistence
(the boolean is the persistence trigger). -/
def ClearIndex (st : MuState) : MuState × Bool :=
  (⟨[], st.embeddingCache, st.embeddingsEnabled⟩, true)

/-- The result of a `Search` call: the returned entries, the state after the
call, whether a network request was attempted, and whether the circuit-breaker
disable log fired. -/
structure SearchOutput : Type where
  results : List IndexEntry
  state : MuState
  attempted : Bool
  logged : Bool
deriving Repr

/-- `Search` (source function `Search`): snapshot the store, short-circuit on
an empty corpus, attempt the query embedding only when the breaker reports
embeddings enabled (a failed or empty embedding turns vector scoring off for
the whole call), then rank and select top-`limit` via `searchSnapshot`. -/
def Search (f : ℚ → ℚ) (provider : String → ProviderResp) (st : MuState)
    (query : String) (limit : Int) : SearchOutput :=
  let snapshot := st.index.map Prod.snd
  if snapshot.length = 0 then ⟨[], st, false, false⟩
  else
    let queryLower := goToLower query
    if st.embeddingsEnabled = true then
      let r := getEmbedding provider st query
      match r.value with
      | some qe =>
          if 0 < qe.length then
            ⟨searchSnapshot f snapshot queryLower qe true limit,
              r.state, r.attempted, r.logged⟩
          else
            ⟨searchSnapshot f snapshot queryLower qe false limit,
              r.state, r.attempted, r.logged⟩
      | none =>
          ⟨searchSnapshot f snapshot queryLower [] false limit,
            r.state, r.attempted, r.logged⟩
    else
      ⟨searchSnapshot f snapshot queryLower [] false limit, st, false, false⟩

/-- One process-level operation against the package state, carrying the
provider oracle it runs against. -/
inductive Op : Type where
  | opIndex (provider : String → ProviderResp)
      (id entryType title content : String) (metadata : Option MetaMap)
      (now : ℕ)
  | opSearch (provider : String → ProviderResp) (query : String) (limit : Int)
  | opGetEmbedding (provider : String → ProviderResp) (text : String)
  | opClear
  | opGetByID (id : String)
  | opGetByType (entryType : String) (limit : Int)

/-- Apply one operation; the boolean reports whether the circuit-breaker
disable log fired during it. -/
def applyOp (hashFn : String → String) (f : ℚ → ℚ) (st : MuState) :
    Op → MuState × Bool
  | .opIndex provider id entryType title content metadata now =>
      let r := Index hashFn provider st id entryType title content metadata now
      (r.state, r.logged)
  | .opSearch provider query limit =>
      let r := Search f provider st query limit
      (r.state, r.logged)
  | .opGetEmbedding provider text =>
      let r := getEmbedding provider st text
      (r.state, r.logged)
  | .opClear => ((ClearIndex st).1, false)
  | .opGetByID _ => (st, false)
  | .opGetByType _ _ => (st, false)

/-- Run a sequence of operations, counting how many times the circuit-breaker
disable log fired. -/
def runOps (hashFn : String → String) (f : ℚ → ℚ) :
    List Op → MuState → MuState × ℕ
  | [], st => (st, 0)
  | op :: rest, st =>
      let p := applyOp hashFn f st op
      let q := runOps hashFn f rest p.1
      (q.1, (if p.2 then 1 else 0) + q.2)

/-- States reachable from a freshly initialized process (empty index and cache;
the initial flag value covers both the default `true` and the environment-based
disable). -/
inductive Reachable (hashFn : String → String) : MuState → Prop where
  | init (b : Bool) : Reachable hashFn ⟨[], [], b⟩
  | step (st : MuState) (f : ℚ → ℚ) (op : Op) :
      Reachable hashFn st → Reachable hashFn (applyOp hashFn f st op).1

/-! ## Basic lemmas about the string and association-list models -/

theorem goContains_empty (s : String) : goContains s "" = true := by
  show containsList [] s.data = true
  induction s.data with
  | nil => rfl
  | cons c rest _ => simp [containsList, isPrefixList]

theorem lookupAssoc_updateAssoc_self {α : Type} (l : List (String × α))
    (k : String) (v : α) : lookupAssoc (updateAssoc l k v) k = some v := by
  induction l with
  | nil => simp [updateAssoc, lookupAssoc]
  | cons p rest ih =>
      by_cases hk : p.1 = k
      · simp [updateAssoc, hk, lookupAssoc]
      · simp [updateAssoc, hk, lookupAssoc, ih]

theorem mem_updateAssoc {α : Type} {l : List (String × α)} {k : String}
    {v : α} {p : String × α} (hp : p ∈ updateAssoc l k v) :
    p.2 = v ∨ p ∈ l := by
  induction l with
  | nil =>
      rw [show updateAssoc ([] : List (String × α)) k v = [(k, v)] from rfl,
        List.mem_singleton] at hp
      exact Or.inl (by rw [hp])
  | cons q rest ih =>
      rcases q with ⟨qk, qv⟩
      by_cases hk : qk = k
      · rw [show updateAssoc ((qk, qv) :: rest) k v =
            (qk, v) :: rest from by simp [updateAssoc, hk],
          List.mem_cons] at hp
        rcases hp with hp | hp
        · exact Or.inl (by rw [hp])
        · exact Or.inr (List.mem_cons_of_mem _ hp)
      · rw [show updateAssoc ((qk, qv) :: rest) k v =
            (qk, qv) :: updateAssoc rest k v from by simp [updateAssoc, hk],
          List.mem_cons] at hp
        rcases hp with hp | hp
        · exact Or.inr (by rw [hp]; exact List.mem_cons_self _ _)
        · rcases ih hp with h | h
          · exact Or.inl h
          · exact Or.inr (List.mem_cons_of_mem _ h)

/-! ## Heap lemmas (the `container/heap` contract over `resultHeap`) -/

/-- The ordering the heap contents are kept in (ascending score). -/
def resLE (a b : SearchResult) : Prop := a.Score ≤ b.Score

theorem mem_heapPush {h : List SearchResult} {r x : SearchResult} :
    x ∈ heapPush h r ↔ x = r ∨ x ∈ h := by
  induction h with
  | nil => simp [heapPush]
  | cons a t ih =>
      by_cases hlt : r.Score < a.Score
      · rw [show heapPush (a :: t) r = r :: a :: t from by
          simp [heapPush, hlt]]
        simp only [List.mem_cons]
      · rw [show heapPush (a :: t) r = a :: heapPush t r from by
          simp [heapPush, hlt]]
        simp only [List.mem_cons, ih]
        tauto

theorem length_heapPush (h : List SearchResult) (r : SearchResult) :
    (heapPush h r).length = h.length + 1 := by
  induction h with
  | nil => rfl
  | cons a t ih =>
      simp only [heapPush]
      split
      · simp
      · simp [ih]

theorem heapPush_ne_nil (h : List SearchResult) (r : SearchResult) :
    heapPush h r ≠ [] := by
  cases h with
  | nil => simp [heapPush]
  | cons a t =>
      simp only [heapPush]
      split <;> simp

theorem sorted_heapPush {h : List SearchResult} {r : SearchResult}
    (hs : h.Pairwise resLE) : (heapPush h r).Pairwise resLE := by
  induction h with
  | nil => simp [heapPush]
  | cons a t ih =>
      rw [List.pairwise_cons] at hs
      simp only [heapPush]
      split
      · rename_i hlt
        refine List.Pairwise.cons ?_ (List.Pairwise.cons hs.1 hs.2)
        intro x hx
        rcases List.mem_cons.mp hx with hx | hx
        · exact hx ▸ le_of_lt hlt
        · exact le_trans (le_of_lt hlt) (hs.1 x hx)
      · rename_i hnlt
        refine List.Pairwise.cons ?_ (ih hs.2)
        intro x hx
        rcases mem_heapPush.mp hx with hx | hx
        · exact hx ▸ le_of_not_lt hnlt
        · exact hs.1 x hx

theorem head_min {m : SearchResult} {t : List SearchResult}
    (hs : (m :: t).Pairwise resLE) :
    ∀ x ∈ m :: t, m.Score ≤ x.Score := by
  rw [List.pairwise_cons] at hs
  intro x hx
  rcases List.mem_cons.mp hx with hx | hx
  · exact hx ▸ le_refl _
  · exact hs.1 x hx

theorem heapPush_perm (h : List SearchResult) (r : SearchResult) :
    (heapPush h r).Perm (r :: h) := by
  induction h with
  | nil => rfl
  | cons a t ih =>
      simp only [heapPush]
      split
      · exact List.Perm.refl _
      · exact (ih.cons a).trans (List.Perm.swap r a t)

/-! ## The candidate-scan invariant of `Search` -/

/-- The loop invariant of the heap scan: the heap contents are sorted
ascending, bounded by `lim`, consist of positively-scored processed candidates
carrying their `rankEntry` score, and every positively-scored processed
candidate is either in the heap or was dropped/evicted when the heap was full
with minimum at least its score. -/
structure FoldInv (f : ℚ → ℚ) (ql : String) (qe : List ℚ) (uv : Bool)
    (lim : ℕ) (processed : List IndexEntry) (h : List SearchResult) :
    Prop where
  sorted : h.Pairwise resLE
  len_le : h.length ≤ lim
  mem : ∀ r ∈ h, r.Score = rankEntry f r.Entry ql qe uv ∧ 0 < r.Score ∧
    r.Entry ∈ processed
  covered : ∀ e ∈ processed, 0 < rankEntry f e ql qe uv →
    (⟨e, rankEntry f e ql qe uv⟩ : SearchResult) ∈ h ∨
      (h.length = lim ∧
        ∃ m t, h = m :: t ∧ rankEntry f e ql qe uv ≤ m.Score)

/-- One-step unfolding of `searchFold` on a cons cell. -/
theorem searchFold_cons (f : ℚ → ℚ) (ql : String) (qe : List ℚ) (uv : Bool)
    (lim : ℕ) (e : IndexEntry) (rest : List IndexEntry)
    (h : List SearchResult) :
    searchFold f ql qe uv lim (e :: rest) h =
      if rankEntry f e ql qe uv ≤ 0 then searchFold f ql qe uv lim rest h
      else if h.length < lim then
        searchFold f ql qe uv lim rest
          (heapPush h ⟨e, rankEntry f e ql qe uv⟩)
      else
        match h with
        | [] => searchFold f ql qe uv lim rest h
        | m :: t =>
            if m.Score < rankEntry f e ql qe uv then
              searchFold f ql qe uv lim rest
                (heapPush t ⟨e, rankEntry f e ql qe uv⟩)
            else searchFold f ql qe uv lim rest h := rfl

theorem searchFold_inv (f : ℚ → ℚ) (ql : String) (qe : List ℚ) (uv : Bool)
    {lim : ℕ} (hlim : 0 < lim) :
    ∀ (entries processed : List IndexEntry) (h : List SearchResult),
      FoldInv f ql qe uv lim processed h →
      FoldInv f ql qe uv lim (processed ++ entries)
        (searchFold f ql qe uv lim entries h) := by
  intro entries
  induction entries with
  | nil =>
      intro processed h inv
      simpa [searchFold] using inv
  | cons e rest ih =>
      intro processed h inv
      have hassoc : processed ++ e :: rest = (processed ++ [e]) ++ rest := by
        simp
      rw [hassoc, searchFold_cons]
      by_cases hle : rankEntry f e ql qe uv ≤ 0
      · rw [if_pos hle]
        apply ih
        refine ⟨inv.sorted, inv.len_le, ?_, ?_⟩
        · intro r hr
          exact ⟨(inv.mem r hr).1, (inv.mem r hr).2.1,
            List.mem_append.mpr (Or.inl (inv.mem r hr).2.2)⟩
        · intro x hx hxpos
          rcases List.mem_append.mp hx with hx | hx
          · exact inv.covered x hx hxpos
          · have hxe : x = e := List.mem_singleton.mp hx
            subst hxe
            exact absurd hxpos (not_lt.mpr hle)
      · rw [if_neg hle]
        have hpos : 0 < rankEntry f e ql qe uv := lt_of_not_le hle
        by_cases hfull : h.length < lim
        · rw [if_pos hfull]
          apply ih
          refine ⟨sorted_heapPush inv.sorted, ?_, ?_, ?_⟩
          · rw [length_heapPush]
            omega
          · intro r hr
            rcases mem_heapPush.mp hr with hr | hr
            · subst hr
              exact ⟨rfl, hpos, List.mem_append.mpr (Or.inr (by simp))⟩
            · exact ⟨(inv.mem r hr).1, (inv.mem r hr).2.1,
                List.mem_append.mpr (Or.inl (inv.mem r hr).2.2)⟩
          · intro x hx hxpos
            rcases List.mem_append.mp hx with hx | hx
            · rcases inv.covered x hx hxpos with hin | ⟨hlen, _, _, _, _⟩
              · exact Or.inl (mem_heapPush.mpr (Or.inr hin))
              · omega
            · have hxe : x = e := List.mem_singleton.mp hx
              subst hxe
              exact Or.inl (mem_heapPush.mpr (Or.inl rfl))
        · rw [if_neg hfull]
          cases h with
          | nil => exact absurd hlim (by simpa using hfull)
          | cons m t =>
              have hlen : (m :: t).length = lim := le_antisymm inv.len_le
                (not_lt.mp hfull)
              show FoldInv f ql qe uv lim ((processed ++ [e]) ++ rest)
                (if m.Score < rankEntry f e ql qe uv then
                  searchFold f ql qe uv lim rest
                    (heapPush t ⟨e, rankEntry f e ql qe uv⟩)
                else searchFold f ql qe uv lim rest (m :: t))
              by_cases hrep : m.Score < rankEntry f e ql qe uv
              · rw [if_pos hrep]
                apply ih
                have htail : t.Pairwise resLE := inv.sorted.of_cons
                refine ⟨sorted_heapPush htail, ?_, ?_, ?_⟩
                · rw [length_heapPush]
                  simpa using inv.len_le
                · intro r hr
                  rcases mem_heapPush.mp hr with hr | hr
                  · subst hr
                    exact ⟨rfl, hpos, List.mem_append.mpr (Or.inr (by simp))⟩
                  · have hrm : r ∈ m :: t := List.mem_cons_of_mem _ hr
                    exact ⟨(inv.mem r hrm).1, (inv.mem r hrm).2.1,
                      List.mem_append.mpr (Or.inl (inv.mem r hrm).2.2)⟩
                · -- every element of the new heap scores at least `m.Score`
                  have hminle : ∀ r ∈ heapPush t ⟨e, rankEntry f e ql qe uv⟩,
                      m.Score ≤ r.Score := by
                    intro r hr
                    rcases mem_heapPush.mp hr with hr | hr
                    · subst hr
                      exact le_of_lt hrep
                    · exact head_min inv.sorted r (List.mem_cons_of_mem _ hr)
                  obtain ⟨m', t', hsplit⟩ :
                      ∃ m' t', heapPush t ⟨e, rankEntry f e ql qe uv⟩ =
                        m' :: t' := by
                    cases hh : heapPush t ⟨e, rankEntry f e ql qe uv⟩ with
                    | nil => exact absurd hh (heapPush_ne_nil _ _)
                    | cons m' t' => exact ⟨m', t', rfl⟩
                  have hlen' :
                      (heapPush t ⟨e, rankEntry f e ql qe uv⟩).length = lim := by
                    rw [length_heapPush]
                    simpa using hlen
                  intro x hx hxpos
                  rcases List.mem_append.mp hx with hx | hx
                  · rcases inv.covered x hx hxpos with hin | ⟨_, m₀, t₀, heq,
                        hble⟩
                    · rcases List.mem_cons.mp hin with hin | hin
                      · -- the popped minimum: bounded by the new minimum
                        refine Or.inr ⟨hlen', m', t', hsplit, ?_⟩
                        have h1 : rankEntry f x ql qe uv = m.Score := by
                          rw [← hin]
                        have h2 : m.Score ≤ m'.Score := by
                          apply hminle
                          rw [hsplit]
                          exact List.mem_cons_self _ _
                        rw [h1]
                        exact h2
                      · exact Or.inl (mem_heapPush.mpr (Or.inr hin))
                    · -- previously dropped: still bounded by the new minimum
                      refine Or.inr ⟨hlen', m', t', hsplit, ?_⟩
                      have hm0 : m₀ = m := by
                        injection heq with h1 h2
                        exact h1.symm
                      have hble' : rankEntry f x ql qe uv ≤ m.Score := by
                        rw [← hm0]
                        exact hble
                      have h2 : m.Score ≤ m'.Score := by
                        apply hminle
                        rw [hsplit]
                        exact List.mem_cons_self _ _
                      exact le_trans hble' h2
                  · have hxe : x = e := List.mem_singleton.mp hx
                    subst hxe
                    exact Or.inl (mem_heapPush.mpr (Or.inl rfl))
              · rw [if_neg hrep]
                apply ih
                refine ⟨inv.sorted, inv.len_le, ?_, ?_⟩
                · intro r hr
                  exact ⟨(inv.mem r hr).1, (inv.mem r hr).2.1,
                    List.mem_append.mpr (Or.inl (inv.mem r hr).2.2)⟩
                · intro x hx hxpos
                  rcases List.mem_append.mp hx with hx | hx
                  · rcases inv.covered x hx hxpos with hin | ⟨_, m₀, t₀, heq,
                        hble⟩
                    · exact Or.inl hin
                    · refine Or.inr ⟨hlen, m, t, rfl, ?_⟩
                      have hm0 : m₀ = m := by
                        injection heq with h1 h2
                        exact h1.symm
                      rw [← hm0]
                      exact hble
                  · have hxe : x = e := List.mem_singleton.mp hx
                    subst hxe
                    exact Or.inr ⟨hlen, m, t, rfl, not_lt.mp hrep⟩


/-- When the heap bound can absorb every remaining candidate, the scan never
evicts: it accumulates exactly the positively-scored candidates. -/
theorem searchFold_perm_of_le (f : ℚ → ℚ) (ql : String) (qe : List ℚ)
    (uv : Bool) (lim : ℕ) :
    ∀ (entries : List IndexEntry) (h : List SearchResult),
      h.length + entries.length ≤ lim →
      (searchFold f ql qe uv lim entries h).Perm
        (h ++ (entries.filter
          (fun e => decide (0 < rankEntry f e ql qe uv))).map
          (fun e => ⟨e, rankEntry f e ql qe uv⟩)) := by
  intro entries
  induction entries with
  | nil =>
      intro h _
      simp [searchFold]
  | cons e rest ih =>
      intro h hlen
      rw [searchFold_cons]
      simp only [List.length_cons] at hlen
      by_cases hle : rankEntry f e ql qe uv ≤ 0
      · rw [if_pos hle]
        rw [List.filter_cons_of_neg (by simp [not_lt.mpr hle])]
        exact ih h (by omega)
      · rw [if_neg hle]
        have hpush : h.length < lim := by omega
        rw [if_pos hpush]
        rw [List.filter_cons_of_pos (by simp [lt_of_not_le hle]),
          List.map_cons]
        have h1 := ih (heapPush h ⟨e, rankEntry f e ql qe uv⟩)
          (by rw [length_heapPush]; omega)
        refine h1.trans ?_
        have h2 := (heapPush_perm h ⟨e, rankEntry f e ql qe uv⟩).append_right
          ((rest.filter (fun e => decide (0 < rankEntry f e ql qe uv))).map
            (fun e => ⟨e, rankEntry f e ql qe uv⟩))
        refine h2.trans ?_
        exact List.perm_middle.symm

/-- The exact number of results the scan accumulates: the number of
positively-scored candidates, capped at the heap bound. -/
theorem searchFold_length (f : ℚ → ℚ) (ql : String) (qe : List ℚ)
    (uv : Bool) (lim : ℕ) :
    ∀ (entries : List IndexEntry) (h : List SearchResult),
      h.length ≤ lim →
      (searchFold f ql qe uv lim entries h).length =
        min (h.length + (entries.filter
          (fun e => decide (0 < rankEntry f e ql qe uv))).length) lim := by
  intro entries
  induction entries with
  | nil =>
      intro h hle
      simp only [searchFold, List.filter_nil, List.length_nil, Nat.add_zero]
      omega
  | cons e rest ih =>
      intro h hle
      rw [searchFold_cons]
      by_cases hneg : rankEntry f e ql qe uv ≤ 0
      · rw [if_pos hneg]
        rw [List.filter_cons_of_neg (by simp [not_lt.mpr hneg])]
        exact ih h hle
      · rw [if_neg hneg]
        rw [List.filter_cons_of_pos (by simp [lt_of_not_le hneg]),
          List.length_cons]
        by_cases hfull : h.length < lim
        · rw [if_pos hfull]
          rw [ih (heapPush h ⟨e, rankEntry f e ql qe uv⟩)
            (by rw [length_heapPush]; omega), length_heapPush]
          omega
        · rw [if_neg hfull]
          cases h with
          | nil =>
              have hlim0 : lim = 0 := by
                simp only [List.length_nil] at hfull
                omega
              rw [ih [] (by simp)]
              simp [hlim0]
          | cons m t =>
              by_cases hrep : m.Score < rankEntry f e ql qe uv
              · show (if m.Score < rankEntry f e ql qe uv then
                    searchFold f ql qe uv lim rest
                      (heapPush t ⟨e, rankEntry f e ql qe uv⟩)
                  else searchFold f ql qe uv lim rest (m :: t)).length = _
                rw [if_pos hrep]
                rw [ih (heapPush t ⟨e, rankEntry f e ql qe uv⟩)
                  (by rw [length_heapPush]; simp at hle hfull ⊢; omega),
                  length_heapPush]
                simp only [List.length_cons] at hle hfull ⊢
                omega
              · show (if m.Score < rankEntry f e ql qe uv then
                    searchFold f ql qe uv lim rest
                      (heapPush t ⟨e, rankEntry f e ql qe uv⟩)
                  else searchFold f ql qe uv lim rest (m :: t)).length = _
                rw [if_neg hrep]
                rw [ih (m :: t) hle]
                simp only [List.length_cons] at hle hfull ⊢
                omega

/-! ## `searchSnapshot`-level consequences -/

theorem searchSnapshot_eq (f : ℚ → ℚ) (snapshot : List IndexEntry)
    (ql : String) (qe : List ℚ) (uv : Bool) (limit : Int)
    (hne : ¬snapshot.length = 0) :
    searchSnapshot f snapshot ql qe uv limit =
      ((searchFold f ql qe uv
        (if limit ≤ 0 ∨ (snapshot.length : Int) < limit then snapshot.length
          else limit.toNat) snapshot []).reverse).map SearchResult.Entry := by
  simp only [searchSnapshot]
  rw [if_neg hne]
  by_cases hz : (searchFold f ql qe uv
      (if limit ≤ 0 ∨ (snapshot.length : Int) < limit then snapshot.length
        else limit.toNat) snapshot []).length = 0
  · rw [if_pos hz]
    rw [List.length_eq_zero] at hz
    rw [hz]
    rfl
  · rw [if_neg hz]

theorem snapLim_pos {n : ℕ} (hn : 0 < n) (limit : Int) :
    0 < (if limit ≤ 0 ∨ (n : Int) < limit then n else limit.toNat) := by
  split
  · exact hn
  · rename_i hcond
    omega

/-- The final scan invariant, starting from the empty heap. -/
theorem foldInv_final (f : ℚ → ℚ) (ql : String) (qe : List ℚ) (uv : Bool)
    {lim : ℕ} (hlim : 0 < lim) (snapshot : List IndexEntry) :
    FoldInv f ql qe uv lim snapshot
      (searchFold f ql qe uv lim snapshot []) := by
  have h0 : FoldInv f ql qe uv lim [] [] := by
    refine ⟨List.Pairwise.nil, by simp, ?_, ?_⟩
    · intro r hr
      exact absurd hr (List.not_mem_nil r)
    · intro e he
      exact absurd he (List.not_mem_nil e)
  have h := searchFold_inv f ql qe uv hlim snapshot [] [] h0
  simpa using h

theorem searchSnapshot_length_le (f : ℚ → ℚ) (snapshot : List IndexEntry)
    (ql : String) (qe : List ℚ) (uv : Bool) {limit : Int}
    (hpos : 0 < limit) :
    (searchSnapshot f snapshot ql qe uv limit).length ≤ limit.toNat := by
  by_cases hne : snapshot.length = 0
  · simp only [searchSnapshot]
    rw [if_pos hne]
    simp
  · rw [searchSnapshot_eq f snapshot ql qe uv limit hne]
    rw [List.length_map, List.length_reverse]
    have hlim : 0 < (if limit ≤ 0 ∨ (snapshot.length : Int) < limit then
        snapshot.length else limit.toNat) :=
      snapLim_pos (Nat.pos_of_ne_zero hne) limit
    have hlenle := (foldInv_final f ql qe uv hlim snapshot).len_le
    refine le_trans hlenle ?_
    split
    · rename_i hcond
      rcases hcond with hcond | hcond
      · omega
      · omega
    · exact le_refl _

theorem searchSnapshot_sorted (f : ℚ → ℚ) (snapshot : List IndexEntry)
    (ql : String) (qe : List ℚ) (uv : Bool) (limit : Int) :
    (searchSnapshot f snapshot ql qe uv limit).Pairwise
      (fun a b => rankEntry f b ql qe uv ≤ rankEntry f a ql qe uv) := by
  by_cases hne : snapshot.length = 0
  · simp only [searchSnapshot]
    rw [if_pos hne]
    exact List.Pairwise.nil
  · rw [searchSnapshot_eq f snapshot ql qe uv limit hne]
    have hlim : 0 < (if limit ≤ 0 ∨ (snapshot.length : Int) < limit then
        snapshot.length else limit.toNat) :=
      snapLim_pos (Nat.pos_of_ne_zero hne) limit
    have hinv := foldInv_final f ql qe uv hlim snapshot
    rw [List.pairwise_map, List.pairwise_reverse]
    refine hinv.sorted.imp_of_mem ?_
    intro a b ha hb hab
    have hsa := (hinv.mem a ha).1
    have hsb := (hinv.mem b hb).1
    rw [← hsa, ← hsb]
    exact hab

theorem searchSnapshot_min_bound (f : ℚ → ℚ) (snapshot : List IndexEntry)
    (ql : String) (qe : List ℚ) (uv : Bool) (limit : Int) :
    ∀ e ∈ snapshot, 0 < rankEntry f e ql qe uv →
      e ∉ searchSnapshot f snapshot ql qe uv limit →
      ∀ x ∈ searchSnapshot f snapshot ql qe uv limit,
        rankEntry f e ql qe uv ≤ rankEntry f x ql qe uv := by
  intro e he hpos hnotin x hx
  by_cases hne : snapshot.length = 0
  · rw [List.length_eq_zero] at hne
    subst hne
    exact absurd he (List.not_mem_nil e)
  · rw [searchSnapshot_eq f snapshot ql qe uv limit hne] at hnotin hx
    have hlim : 0 < (if limit ≤ 0 ∨ (snapshot.length : Int) < limit then
        snapshot.length else limit.toNat) :=
      snapLim_pos (Nat.pos_of_ne_zero hne) limit
    have hinv := foldInv_final f ql qe uv hlim snapshot
    rcases hinv.covered e he hpos with hin | ⟨_, m, t, heq, hble⟩
    · exfalso
      apply hnotin
      exact List.mem_map.mpr ⟨⟨e, rankEntry f e ql qe uv⟩,
        List.mem_reverse.mpr hin, rfl⟩
    · rcases List.mem_map.mp hx with ⟨r, hr, hrx⟩
      rw [List.mem_reverse] at hr
      have hscore := (hinv.mem r hr).1
      have hmin : m.Score ≤ r.Score := by
        apply head_min
        · rw [← heq]
          exact hinv.sorted
        · rw [← heq]
          exact hr
      rw [← hrx, ← hscore]
      exact le_trans hble hmin

theorem searchSnapshot_all_of_nonpos (f : ℚ → ℚ) (snapshot : List IndexEntry)
    (ql : String) (qe : List ℚ) (uv : Bool) {limit : Int}
    (hle : limit ≤ 0) :
    (searchSnapshot f snapshot ql qe uv limit).Perm
      (snapshot.filter (fun e => decide (0 < rankEntry f e ql qe uv))) := by
  by_cases hne : snapshot.length = 0
  · rw [List.length_eq_zero] at hne
    subst hne
    simp [searchSnapshot]
  · rw [searchSnapshot_eq f snapshot ql qe uv limit hne]
    have hcond : limit ≤ 0 ∨ ((snapshot.length : ℕ) : Int) < limit :=
      Or.inl hle
    rw [if_pos hcond]
    have hperm := searchFold_perm_of_le f ql qe uv snapshot.length snapshot []
      (by simp)
    simp only [List.nil_append] at hperm
    have h1 : ((searchFold f ql qe uv snapshot.length snapshot
        []).reverse).Perm (searchFold f ql qe uv snapshot.length snapshot
        []) := List.reverse_perm _
    have h2 := (h1.trans hperm).map SearchResult.Entry
    refine h2.trans ?_
    rw [List.map_map]
    have hid : (SearchResult.Entry ∘ fun e =>
        (⟨e, rankEntry f e ql qe uv⟩ : SearchResult)) = id := rfl
    rw [hid, List.map_id]

/-! ## State lemmas for `getEmbedding`, `Index` and the operations -/

theorem getEmbedding_disabled (provider : String → ProviderResp)
    (st : MuState) (text : String) (h : st.embeddingsEnabled = false) :
    getEmbedding provider st text = ⟨none, st, false, false⟩ := by
  simp [getEmbedding, h]

theorem getEmbedding_emptyText (provider : String → ProviderResp)
    (st : MuState) (text : String) (h : goTrim text = "") :
    getEmbedding provider st text = ⟨none, st, false, false⟩ := by
  by_cases h1 : st.embeddingsEnabled = false
  · simp [getEmbedding, h1]
  · simp [getEmbedding, h1, h]

theorem getEmbedding_netErr (provider : String → ProviderResp) (st : MuState)
    (text : String) (hen : st.embeddingsEnabled = true)
    (htr : ¬goTrim text = "")
    (hc : embedCacheHit st (goTrim text) = none)
    (hp : provider text = .netErr) :
    getEmbedding provider st text =
      ⟨none, ⟨st.index, st.embeddingCache, false⟩, true, true⟩ := by
  simp [getEmbedding, hen, htr, hc, hp, disableEmbeddings]

theorem getEmbedding_badStatus (provider : String → ProviderResp)
    (st : MuState) (text : String) (hen : st.embeddingsEnabled = true)
    (htr : ¬goTrim text = "")
    (hc : embedCacheHit st (goTrim text) = none)
    (hp : provider text = .badStatus) :
    getEmbedding provider st text = ⟨none, st, true, false⟩ := by
  simp [getEmbedding, hen, htr, hc, hp]

theorem getEmbedding_badBody (provider : String → ProviderResp)
    (st : MuState) (text : String) (hen : st.embeddingsEnabled = true)
    (htr : ¬goTrim text = "")
    (hc : embedCacheHit st (goTrim text) = none)
    (hp : provider text = .badBody) :
    getEmbedding provider st text = ⟨none, st, true, false⟩ := by
  simp [getEmbedding, hen, htr, hc, hp]

theorem getEmbedding_ok (provider : String → ProviderResp) (st : MuState)
    (text : String) (v : List ℚ) (hen : st.embeddingsEnabled = true)
    (htr : ¬goTrim text = "")
    (hc : embedCacheHit st (goTrim text) = none)
    (hp : provider text = .ok v) :
    getEmbedding provider st text =
      ⟨some v, ⟨st.index, updateAssoc st.embeddingCache (goTrim text) v,
        st.embeddingsEnabled⟩, true, false⟩ := by
  simp [getEmbedding, hen, htr, hc, hp]

theorem getEmbedding_index (provider : String → ProviderResp) (st : MuState)
    (text : String) : (getEmbedding provider st text).state.index = st.index := by
  by_cases h1 : st.embeddingsEnabled = false
  · simp [getEmbedding, h1]
  · by_cases h2 : goTrim text = ""
    · simp [getEmbedding, h1, h2]
    · cases hc : embedCacheHit st (goTrim text) with
      | some v => simp [getEmbedding, h1, h2, hc]
      | none =>
          cases hp : provider text <;>
            simp [getEmbedding, h1, h2, hc, hp, disableEmbeddings]

theorem getEmbedding_enabled_mono (provider : String → ProviderResp)
    (st : MuState) (text : String)
    (h : (getEmbedding provider st text).state.embeddingsEnabled = true) :
    st.embeddingsEnabled = true := by
  by_cases h1 : st.embeddingsEnabled = false
  · rw [getEmbedding_disabled provider st text h1] at h
    exact absurd h (by simp [h1])
  · simpa using h1

theorem getEmbedding_logged_trip (provider : String → ProviderResp)
    (st : MuState) (text : String)
    (h : (getEmbedding provider st text).logged = true) :
    st.embeddingsEnabled = true ∧
      (getEmbedding provider st text).state.embeddingsEnabled = false := by
  by_cases h1 : st.embeddingsEnabled = false
  · rw [getEmbedding_disabled provider st text h1] at h ⊢
    exact absurd h (by simp)
  · by_cases h2 : goTrim text = ""
    · rw [getEmbedding_emptyText provider st text h2] at h ⊢
      exact absurd h (by simp)
    · cases hc : embedCacheHit st (goTrim text) with
      | some v =>
          constructor
          · simpa using h1
          · simp [getEmbedding, h1, h2, hc] at h
      | none =>
          cases hp : provider text with
          | netErr =>
              constructor
              · simpa using h1
              · simp [getEmbedding, h1, h2, hc, hp, disableEmbeddings]
          | badStatus => simp [getEmbedding, h1, h2, hc, hp] at h
          | badBody => simp [getEmbedding, h1, h2, hc, hp] at h
          | ok v => simp [getEmbedding, h1, h2, hc, hp] at h

theorem Index_noop (hashFn : String → String) (provider : String → ProviderResp)
    (st : MuState) (id ty title content : String) (md : Option MetaMap)
    (now : ℕ) (ex : IndexEntry) (hex : lookupAssoc st.index id = some ex)
    (h1 : ex.EntryType = ty) (h2 : ex.Title = title) (h3 : ex.Content = content)
    (h4 : ex.Metadata = md) (h5 : 0 < ex.Embedding.length) :
    Index hashFn provider st id ty title content md now =
      ⟨st, false, false, false⟩ := by
  simp only [Index, hex]
  rw [if_pos ⟨h1, h2, h3, h4, h5⟩]

theorem Index_eq_indexStore_of_none (hashFn : String → String)
    (provider : String → ProviderResp) (st : MuState)
    (id ty title content : String) (md : Option MetaMap) (now : ℕ)
    (hex : lookupAssoc st.index id = none) :
    Index hashFn provider st id ty title content md now =
      indexStore hashFn provider st none id ty title content md now := by
  simp only [Index, hex]

theorem Index_eq_indexStore_of_changed (hashFn : String → String)
    (provider : String → ProviderResp) (st : MuState)
    (id ty title content : String) (md : Option MetaMap) (now : ℕ)
    (ex : IndexEntry) (hex : lookupAssoc st.index id = some ex)
    (hdiff : ¬(ex.EntryType = ty ∧ ex.Title = title ∧ ex.Content = content ∧
      ex.Metadata = md ∧ 0 < ex.Embedding.length)) :
    Index hashFn provider st id ty title content md now =
      indexStore hashFn provider st (some ex) id ty title content md now := by
  simp only [Index, hex]
  rw [if_neg hdiff]

/-- The entry `Index` stores: the freshly built entry (with lower-cased shadow
fields), carrying the embedding and source-text hash only when the embedding
is non-empty. -/
def builtEntry (hashFn : String → String) (id ty title content : String)
    (md : Option MetaMap) (now : ℕ) (emb : List ℚ) : IndexEntry :=
  if 0 < emb.length then
    { ID := id, EntryType := ty, Title := title, TitleLower := goToLower title,
      Content := content, ContentLower := goToLower content, Metadata := md,
      Embedding := emb, EmbeddingHash := hashFn (textToEmbed title content),
      IndexedAt := now }
  else
    { ID := id, EntryType := ty, Title := title, TitleLower := goToLower title,
      Content := content, ContentLower := goToLower content, Metadata := md,
      Embedding := [], EmbeddingHash := "", IndexedAt := now }

theorem indexStore_eq_reuse (hashFn : String → String)
    (provider : String → ProviderResp) (st : MuState) (ex : IndexEntry)
    (id ty title content : String) (md : Option MetaMap) (now : ℕ)
    (hcond : ex.EmbeddingHash = hashFn (textToEmbed title content) ∧
      0 < ex.Embedding.length) :
    indexStore hashFn provider st (some ex) id ty title content md now =
      ⟨⟨updateAssoc st.index id
          (builtEntry hashFn id ty title content md now ex.Embedding),
        st.embeddingCache, st.embeddingsEnabled⟩, false, false, true⟩ := by
  simp only [indexStore]
  rw [if_pos hcond]
  rfl

theorem indexStore_eq_call (hashFn : String → String)
    (provider : String → ProviderResp) (st : MuState)
    (existing : Option IndexEntry) (id ty title content : String)
    (md : Option MetaMap) (now : ℕ)
    (hno : match existing with
      | some ex => ¬(ex.EmbeddingHash = hashFn (textToEmbed title content) ∧
          0 < ex.Embedding.length)
      | none => True) :
    indexStore hashFn provider st existing id ty title content md now =
      ⟨⟨updateAssoc (getEmbedding provider st
            (textToEmbed title content)).state.index id
          (builtEntry hashFn id ty title content md now
            ((getEmbedding provider st
              (textToEmbed title content)).value.getD [])),
        (getEmbedding provider st
          (textToEmbed title content)).state.embeddingCache,
        (getEmbedding provider st
          (textToEmbed title content)).state.embeddingsEnabled⟩,
      (getEmbedding provider st (textToEmbed title content)).attempted,
      (getEmbedding provider st (textToEmbed title content)).logged,
      true⟩ := by
  cases existing with
  | none => rfl
  | some ex =>
      simp only [indexStore]
      rw [if_neg hno]
      rfl

theorem builtEntry_Title (hashFn : String → String)
    (id ty title content : String) (md : Option MetaMap) (now : ℕ)
    (emb : List ℚ) :
    (builtEntry hashFn id ty title content md now emb).Title = title := by
  unfold builtEntry
  split <;> rfl

theorem builtEntry_Content (hashFn : String → String)
    (id ty title content : String) (md : Option MetaMap) (now : ℕ)
    (emb : List ℚ) :
    (builtEntry hashFn id ty title content md now emb).Content = content := by
  unfold builtEntry
  split <;> rfl

theorem builtEntry_hash (hashFn : String → String)
    (id ty title content : String) (md : Option MetaMap) (now : ℕ)
    (emb : List ℚ)
    (hne : (builtEntry hashFn id ty title content md now emb).Embedding ≠ []) :
    (builtEntry hashFn id ty title content md now emb).EmbeddingHash =
      hashFn (textToEmbed title content) := by
  unfold builtEntry at hne ⊢
  by_cases hc : 0 < emb.length
  · rw [if_pos hc]
  · rw [if_neg hc] at hne
    simp at hne

/-- The invariant of claim C7 on a state: every indexed entry with a non-empty
embedding carries the hash of its own embedding source text. -/
def embedHashInv (hashFn : String → String) (st : MuState) : Prop :=
  ∀ p ∈ st.index, p.2.Embedding ≠ [] →
    p.2.EmbeddingHash = hashFn (textToEmbed p.2.Title p.2.Content)

theorem embedHashInv_update (hashFn : String → String)
    (idx : List (String × IndexEntry)) (id : String) (entry : IndexEntry)
    (hinv : ∀ p ∈ idx, p.2.Embedding ≠ [] →
      p.2.EmbeddingHash = hashFn (textToEmbed p.2.Title p.2.Content))
    (hent : entry.Embedding ≠ [] →
      entry.EmbeddingHash = hashFn (textToEmbed entry.Title entry.Content)) :
    ∀ p ∈ updateAssoc idx id entry, p.2.Embedding ≠ [] →
      p.2.EmbeddingHash = hashFn (textToEmbed p.2.Title p.2.Content) := by
  intro p hp
  rcases mem_updateAssoc hp with hv | hp'
  · rw [hv]
    exact hent
  · exact hinv p hp'

theorem indexStore_preserves (hashFn : String → String)
    (provider : String → ProviderResp) (st : MuState)
    (existing : Option IndexEntry) (id ty title content : String)
    (md : Option MetaMap) (now : ℕ) (hinv : embedHashInv hashFn st) :
    embedHashInv hashFn (indexStore hashFn provider st existing id ty title
      content md now).state := by
  have hent : ∀ emb : List ℚ,
      (builtEntry hashFn id ty title content md now emb).Embedding ≠ [] →
      (builtEntry hashFn id ty title content md now emb).EmbeddingHash =
        hashFn (textToEmbed
          (builtEntry hashFn id ty title content md now emb).Title
          (builtEntry hashFn id ty title content md now emb).Content) := by
    intro emb hne
    rw [builtEntry_Title, builtEntry_Content]
    exact builtEntry_hash hashFn id ty title content md now emb hne
  cases existing with
  | some ex =>
      by_cases hcond : ex.EmbeddingHash = hashFn (textToEmbed title content) ∧
          0 < ex.Embedding.length
      · rw [indexStore_eq_reuse hashFn provider st ex id ty title content md
          now hcond]
        exact embedHashInv_update hashFn st.index id _ hinv (hent _)
      · rw [indexStore_eq_call hashFn provider st (some ex) id ty title
          content md now hcond]
        intro p hp
        rw [getEmbedding_index] at hp
        exact embedHashInv_update hashFn st.index id _ hinv (hent _) p hp
  | none =>
      rw [indexStore_eq_call hashFn provider st none id ty title content md
        now trivial]
      intro p hp
      rw [getEmbedding_index] at hp
      exact embedHashInv_update hashFn st.index id _ hinv (hent _) p hp

theorem Index_preserves (hashFn : String → String)
    (provider : String → ProviderResp) (st : MuState)
    (id ty title content : String) (md : Option MetaMap) (now : ℕ)
    (hinv : embedHashInv hashFn st) :
    embedHashInv hashFn (Index hashFn provider st id ty title content
      md now).state := by
  cases hex : lookupAssoc st.index id with
  | some ex =>
      by_cases hsame : ex.EntryType = ty ∧ ex.Title = title ∧
          ex.Content = content ∧ ex.Metadata = md ∧ 0 < ex.Embedding.length
      · rw [Index_noop hashFn provider st id ty title content md now ex hex
          hsame.1 hsame.2.1 hsame.2.2.1 hsame.2.2.2.1 hsame.2.2.2.2]
        exact hinv
      · rw [Index_eq_indexStore_of_changed hashFn provider st id ty title
          content md now ex hex hsame]
        exact indexStore_preserves hashFn provider st (some ex) id ty title
          content md now hinv
  | none =>
      rw [Index_eq_indexStore_of_none hashFn provider st id ty title content
        md now hex]
      exact indexStore_preserves hashFn provider st none id ty title content
        md now hinv

/-- `Search` either leaves the state untouched with no effects, or passes
through exactly the state and effects of its single query-embedding call. -/
theorem Search_shape (f : ℚ → ℚ) (provider : String → ProviderResp)
    (st : MuState) (query : String) (limit : Int) :
    ((Search f provider st query limit).state = st ∧
      (Search f provider st query limit).attempted = false ∧
      (Search f provider st query limit).logged = false) ∨
    ((Search f provider st query limit).state =
        (getEmbedding provider st query).state ∧
      (Search f provider st query limit).attempted =
        (getEmbedding provider st query).attempted ∧
      (Search f provider st query limit).logged =
        (getEmbedding provider st query).logged) := by
  simp only [Search]
  by_cases hne : (st.index.map Prod.snd).length = 0
  · rw [if_pos hne]
    exact Or.inl ⟨rfl, rfl, rfl⟩
  · rw [if_neg hne]
    by_cases hen : st.embeddingsEnabled = true
    · rw [if_pos hen]
      cases hv : (getEmbedding provider st query).value with
      | some qe =>
          right
          by_cases h0 : 0 < qe.length
          · refine ⟨?_, ?_, ?_⟩ <;> simp [h0]
          · refine ⟨?_, ?_, ?_⟩ <;> simp [h0]
      | none =>
          exact Or.inr ⟨rfl, rfl, rfl⟩
    · rw [if_neg hen]
      exact Or.inl ⟨rfl, rfl, rfl⟩

/-- `Index` either leaves the breaker flag alone with no log and no network
attempt, or passes through exactly the flag, log and attempt of its single
embedding call (on the call's embedding source text). -/
theorem Index_flag_shape (hashFn : String → String)
    (provider : String → ProviderResp) (st : MuState)
    (id ty title content : String) (md : Option MetaMap) (now : ℕ) :
    ((Index hashFn provider st id ty title content md
        now).state.embeddingsEnabled = st.embeddingsEnabled ∧
      (Index hashFn provider st id ty title content md now).logged = false ∧
      (Index hashFn provider st id ty title content md now).attempted =
        false) ∨
    ((Index hashFn provider st id ty title content md
        now).state.embeddingsEnabled = (getEmbedding provider st
          (textToEmbed title content)).state.embeddingsEnabled ∧
      (Index hashFn provider st id ty title content md now).logged =
        (getEmbedding provider st (textToEmbed title content)).logged ∧
      (Index hashFn provider st id ty title content md now).attempted =
        (getEmbedding provider st (textToEmbed title content)).attempted) := by
  cases hex : lookupAssoc st.index id with
  | some ex =>
      by_cases hsame : ex.EntryType = ty ∧ ex.Title = title ∧
          ex.Content = content ∧ ex.Metadata = md ∧ 0 < ex.Embedding.length
      · rw [Index_noop hashFn provider st id ty title content md now ex hex
          hsame.1 hsame.2.1 hsame.2.2.1 hsame.2.2.2.1 hsame.2.2.2.2]
        exact Or.inl ⟨rfl, rfl, rfl⟩
      · rw [Index_eq_indexStore_of_changed hashFn provider st id ty title
          content md now ex hex hsame]
        by_cases hcond : ex.EmbeddingHash =
            hashFn (textToEmbed title content) ∧ 0 < ex.Embedding.length
        · rw [indexStore_eq_reuse hashFn provider st ex id ty title content
            md now hcond]
          exact Or.inl ⟨rfl, rfl, rfl⟩
        · rw [indexStore_eq_call hashFn provider st (some ex) id ty title
            content md now hcond]
          exact Or.inr ⟨rfl, rfl, rfl⟩
  | none =>
      rw [Index_eq_indexStore_of_none hashFn provider st id ty title content
        md now hex]
      rw [indexStore_eq_call hashFn provider st none id ty title content md
        now trivial]
      exact Or.inr ⟨rfl, rfl, rfl⟩


/-! ## Breaker-flag lemmas over whole operations -/

theorem applyOp_enabled_mono (hashFn : String → String) (f : ℚ → ℚ)
    (st : MuState) (op : Op)
    (h : (applyOp hashFn f st op).1.embeddingsEnabled = true) :
    st.embeddingsEnabled = true := by
  cases op with
  | opIndex provider id ty title content md now =>
      rcases Index_flag_shape hashFn provider st id ty title content md now
        with ⟨he, _, _⟩ | ⟨he, _, _⟩
      · rw [show (applyOp hashFn f st
          (Op.opIndex provider id ty title content md now)).1 =
            (Index hashFn provider st id ty title content md now).state
          from rfl, he] at h
        exact h
      · rw [show (applyOp hashFn f st
          (Op.opIndex provider id ty title content md now)).1 =
            (Index hashFn provider st id ty title content md now).state
          from rfl, he] at h
        exact getEmbedding_enabled_mono provider st (textToEmbed title
          content) h
  | opSearch provider query limit =>
      rcases Search_shape f provider st query limit with ⟨he, _, _⟩ | ⟨he, _, _⟩
      · rw [show (applyOp hashFn f st (Op.opSearch provider query limit)).1 =
            (Search f provider st query limit).state from rfl, he] at h
        exact h
      · rw [show (applyOp hashFn f st (Op.opSearch provider query limit)).1 =
            (Search f provider st query limit).state from rfl, he] at h
        exact getEmbedding_enabled_mono provider st query h
  | opGetEmbedding provider text =>
      exact getEmbedding_enabled_mono provider st text h
  | opClear => exact h
  | opGetByID id => exact h
  | opGetByType ty limit => exact h

theorem applyOp_logged_trip (hashFn : String → String) (f : ℚ → ℚ)
    (st : MuState) (op : Op) (h : (applyOp hashFn f st op).2 = true) :
    st.embeddingsEnabled = true ∧
      (applyOp hashFn f st op).1.embeddingsEnabled = false := by
  cases op with
  | opIndex provider id ty title content md now =>
      rcases Index_flag_shape hashFn provider st id ty title content md now
        with ⟨_, hl, _⟩ | ⟨he, hl, _⟩
      · rw [show (applyOp hashFn f st
          (Op.opIndex provider id ty title content md now)).2 =
            (Index hashFn provider st id ty title content md now).logged
          from rfl, hl] at h
        exact absurd h (by simp)
      · rw [show (applyOp hashFn f st
          (Op.opIndex provider id ty title content md now)).2 =
            (Index hashFn provider st id ty title content md now).logged
          from rfl, hl] at h
        refine ⟨(getEmbedding_logged_trip provider st _ h).1, ?_⟩
        rw [show (applyOp hashFn f st
          (Op.opIndex provider id ty title content md now)).1 =
            (Index hashFn provider st id ty title content md now).state
          from rfl, he]
        exact (getEmbedding_logged_trip provider st _ h).2
  | opSearch provider query limit =>
      rcases Search_shape f provider st query limit
        with ⟨_, _, hl⟩ | ⟨he, _, hl⟩
      · rw [show (applyOp hashFn f st (Op.opSearch provider query limit)).2 =
            (Search f provider st query limit).logged from rfl, hl] at h
        exact absurd h (by simp)
      · rw [show (applyOp hashFn f st (Op.opSearch provider query limit)).2 =
            (Search f provider st query limit).logged from rfl, hl] at h
        refine ⟨(getEmbedding_logged_trip provider st query h).1, ?_⟩
        rw [show (applyOp hashFn f st (Op.opSearch provider query limit)).1 =
            (Search f provider st query limit).state from rfl, he]
        exact (getEmbedding_logged_trip provider st query h).2
  | opGetEmbedding provider text =>
      exact getEmbedding_logged_trip provider st text h
  | opClear => exact absurd h (by simp [applyOp])
  | opGetByID id => exact absurd h (by simp [applyOp])
  | opGetByType ty limit => exact absurd h (by simp [applyOp])

theorem applyOp_disabled (hashFn : String → String) (f : ℚ → ℚ)
    (st : MuState) (op : Op) (h : st.embeddingsEnabled = false) :
    (applyOp hashFn f st op).1.embeddingsEnabled = false := by
  by_cases h2 : (applyOp hashFn f st op).1.embeddingsEnabled = true
  · rw [applyOp_enabled_mono hashFn f st op h2] at h
    exact absurd h (by simp)
  · simpa using h2

theorem applyOp_no_log_of_disabled (hashFn : String → String) (f : ℚ → ℚ)
    (st : MuState) (op : Op) (h : st.embeddingsEnabled = false) :
    (applyOp hashFn f st op).2 = false := by
  by_cases h2 : (applyOp hashFn f st op).2 = true
  · rw [(applyOp_logged_trip hashFn f st op h2).1] at h
    exact absurd h (by simp)
  · simpa using h2

theorem runOps_count_zero (hashFn : String → String) (f : ℚ → ℚ) :
    ∀ (ops : List Op) (st : MuState), st.embeddingsEnabled = false →
      (runOps hashFn f ops st).2 = 0 := by
  intro ops
  induction ops with
  | nil => intro st _; rfl
  | cons op rest ih =>
      intro st h
      simp only [runOps]
      rw [applyOp_no_log_of_disabled hashFn f st op h,
        ih _ (applyOp_disabled hashFn f st op h)]
      simp

theorem runOps_count_le_one (hashFn : String → String) (f : ℚ → ℚ) :
    ∀ (ops : List Op) (st : MuState), (runOps hashFn f ops st).2 ≤ 1 := by
  intro ops
  induction ops with
  | nil => intro st; simp [runOps]
  | cons op rest ih =>
      intro st
      simp only [runOps]
      by_cases hl : (applyOp hashFn f st op).2 = true
      · rw [hl, runOps_count_zero hashFn f rest _
          (applyOp_logged_trip hashFn f st op hl).2]
        simp
      · have hl' : (applyOp hashFn f st op).2 = false := by simpa using hl
        rw [hl']
        simpa using ih (applyOp hashFn f st op).1

/-! ## `Search` wrapper lemmas -/

theorem Search_empty (f : ℚ → ℚ) (provider : String → ProviderResp)
    (st : MuState) (query : String) (limit : Int) (h : st.index = []) :
    Search f provider st query limit = ⟨[], st, false, false⟩ := by
  simp only [Search, h]
  rfl

theorem Search_disabled (f : ℚ → ℚ) (provider : String → ProviderResp)
    (st : MuState) (query : String) (limit : Int)
    (hen : st.embeddingsEnabled = false) :
    Search f provider st query limit =
      ⟨searchSnapshot f (st.index.map Prod.snd) (goToLower query) [] false
        limit, st, false, false⟩ := by
  simp only [Search]
  by_cases hne : (st.index.map Prod.snd).length = 0
  · rw [if_pos hne]
    have hsnap : searchSnapshot f (st.index.map Prod.snd) (goToLower query)
        [] false limit = [] := by
      simp only [searchSnapshot]
      rw [if_pos hne]
    rw [hsnap]
  · rw [if_neg hne, if_neg (by simp [hen])]

theorem Search_results_eq (f : ℚ → ℚ) (provider : String → ProviderResp)
    (st : MuState) (query : String) (limit : Int) :
    ∃ (qe : List ℚ) (uv : Bool), (Search f provider st query limit).results =
      searchSnapshot f (st.index.map Prod.snd) (goToLower query) qe uv
        limit := by
  simp only [Search]
  by_cases hne : (st.index.map Prod.snd).length = 0
  · rw [if_pos hne]
    refine ⟨[], false, ?_⟩
    show ([] : List IndexEntry) = _
    simp only [searchSnapshot]
    rw [if_pos hne]
  · rw [if_neg hne]
    by_cases hen : st.embeddingsEnabled = true
    · rw [if_pos hen]
      cases hv : (getEmbedding provider st query).value with
      | some qe =>
          by_cases h0 : 0 < qe.length
          · exact ⟨qe, true, by simp [h0]⟩
          · exact ⟨qe, false, by simp [h0]⟩
      | none => exact ⟨[], false, rfl⟩
    · rw [if_neg hen]
      exact ⟨[], false, rfl⟩


theorem Search_query_embed_fails (f : ℚ → ℚ)
    (provider : String → ProviderResp) (st : MuState) (query : String)
    (limit : Int) (hv : (getEmbedding provider st query).value = none) :
    (Search f provider st query limit).results =
      searchSnapshot f (st.index.map Prod.snd) (goToLower query) [] false
        limit := by
  simp only [Search]
  by_cases hne : (st.index.map Prod.snd).length = 0
  · rw [if_pos hne]
    show ([] : List IndexEntry) = _
    simp only [searchSnapshot]
    rw [if_pos hne]
  · rw [if_neg hne]
    by_cases hen : st.embeddingsEnabled = true
    · rw [if_pos hen, hv]
    · rw [if_neg hen]

theorem Search_query_embed_empty (f : ℚ → ℚ)
    (provider : String → ProviderResp) (st : MuState) (query : String)
    (limit : Int)
    (hv : (getEmbedding provider st query).value = some []) :
    (Search f provider st query limit).results =
      searchSnapshot f (st.index.map Prod.snd) (goToLower query) [] false
        limit := by
  simp only [Search]
  by_cases hne : (st.index.map Prod.snd).length = 0
  · rw [if_pos hne]
    show ([] : List IndexEntry) = _
    simp only [searchSnapshot]
    rw [if_pos hne]
  · rw [if_neg hne]
    by_cases hen : st.embeddingsEnabled = true
    · rw [if_pos hen, hv]
      rfl
    · rw [if_neg hen]

/-- With vector scoring off, the empty (lower-cased) query scores every entry
3 through the title substring match. -/
theorem rankEntry_empty_query (f : ℚ → ℚ) (e : IndexEntry) (qe : List ℚ) :
    rankEntry f e "" qe false = 3 := by
  simp only [rankEntry]
  have hcond : ¬(false = true ∧ 0 < e.Embedding.length ∧
      qe.length = e.Embedding.length) := by simp
  rw [if_neg hcond, if_pos (rfl : (0 : ℚ) = 0)]
  simp only [lexScore]
  rw [if_pos (goContains_empty e.TitleLower)]


/-! ## Claim theorems -/

/-- C1: Per-entry dual-gate vector scoring in `Search`: for every entry whose
embedding has the same length as the query embedding, the cosine similarity
`s` qualifies the entry for a vector score (equal to `s`) if and only if
`s > 0.3` and either the lower-cased query is a substring of the entry's
lower-cased title or content, or `s ≥ 0.6`; an entry whose embedding length
differs from the query embedding's is treated as similarity `0` and falls
through to lexical scoring, as does any entry that fails the gate. -/
theorem C1_rank_dual_gate (f : ℚ → ℚ) (entry : IndexEntry) (ql : String)
    (qe : List ℚ) :
    (qe.length = entry.Embedding.length →
      ((0.3 < cosineSimilarity f qe entry.Embedding ∧
          (goContains entry.TitleLower ql = true ∨
            goContains entry.ContentLower ql = true ∨
            0.6 ≤ cosineSimilarity f qe entry.Embedding)) →
        rankEntry f entry ql qe true = cosineSimilarity f qe entry.Embedding) ∧
      (¬(0.3 < cosineSimilarity f qe entry.Embedding ∧
          (goContains entry.TitleLower ql = true ∨
            goContains entry.ContentLower ql = true ∨
            0.6 ≤ cosineSimilarity f qe entry.Embedding)) →
        rankEntry f entry ql qe true = lexScore entry ql)) ∧
    (qe.length ≠ entry.Embedding.length →
      cosineSimilarity f qe entry.Embedding = 0 ∧
      rankEntry f entry ql qe true = lexScore entry ql) := by
  constructor
  · intro hlen
    constructor
    · rintro ⟨hgt, hdisj⟩
      have hlen0 : 0 < entry.Embedding.length := by
        rcases Nat.eq_zero_or_pos entry.Embedding.length with h0 | h0
        · exfalso
          have hemb : entry.Embedding = [] := List.length_eq_zero.mp h0
          have hqe : qe = [] := List.length_eq_zero.mp (by rw [hlen, h0])
          rw [hemb, hqe] at hgt
          have hzero : cosineSimilarity f [] [] = 0 := by
            simp [cosineSimilarity, dotList]
          rw [hzero] at hgt
          norm_num at hgt
        · exact h0
      simp only [rankEntry]
      rw [if_pos (show True ∧ 0 < entry.Embedding.length ∧
          qe.length = entry.Embedding.length from ⟨trivial, hlen0, hlen⟩),
        if_pos hgt, if_pos hdisj,
        if_neg (show ¬cosineSimilarity f qe entry.Embedding = 0 by
          intro h0
          rw [h0] at hgt
          norm_num at hgt)]
    · intro hngate
      simp only [rankEntry]
      by_cases hc : True ∧ 0 < entry.Embedding.length ∧
          qe.length = entry.Embedding.length
      · rw [if_pos hc]
        by_cases hgt : 0.3 < cosineSimilarity f qe entry.Embedding
        · have hnd : ¬(goContains entry.TitleLower ql = true ∨
              goContains entry.ContentLower ql = true ∨
              0.6 ≤ cosineSimilarity f qe entry.Embedding) :=
            fun hd => hngate ⟨hgt, hd⟩
          rw [if_pos hgt, if_neg hnd, if_pos (rfl : (0 : ℚ) = 0)]
        · rw [if_neg hgt, if_pos (rfl : (0 : ℚ) = 0)]
      · rw [if_neg hc, if_pos (rfl : (0 : ℚ) = 0)]
  · intro hlen
    have hs : cosineSimilarity f qe entry.Embedding = 0 := by
      simp only [cosineSimilarity]
      rw [if_pos hlen]
    refine ⟨hs, ?_⟩
    simp only [rankEntry]
    have hc : ¬(True ∧ 0 < entry.Embedding.length ∧
        qe.length = entry.Embedding.length) := fun h => hlen h.2.2
    rw [if_neg hc, if_pos (rfl : (0 : ℚ) = 0)]

/-- A sample entry with an embedding, exercising the vector path of
`rankEntry` with a query embedding of matching length. -/
def vecEntry : IndexEntry :=
  { ID := "v", EntryType := "news", Title := "Abc", TitleLower := "abc",
    Content := "", ContentLower := "", Metadata := none,
    Embedding := [1, 0], EmbeddingHash := "h", IndexedAt := 0 }

theorem C1_rank_dual_gate_witness :
    (([(1 : ℚ), 0] : List ℚ).length = vecEntry.Embedding.length) ∧
    rankEntry (fun q => q) vecEntry "zz" [1, 0] true =
      cosineSimilarity (fun q => q) [1, 0] vecEntry.Embedding := by
  have hlen : (([(1 : ℚ), 0] : List ℚ).length = vecEntry.Embedding.length) :=
    rfl
  have hsim : cosineSimilarity (fun q => q) [1, 0] vecEntry.Embedding = 1 := by
    norm_num [cosineSimilarity, dotList, vecEntry]
  refine ⟨hlen, ?_⟩
  exact ((C1_rank_dual_gate (fun q => q) vecEntry "zz" [1, 0]).1 hlen).1
    ⟨by rw [hsim]; norm_num, Or.inr (Or.inr (by rw [hsim]; norm_num))⟩


/-- The two-entry store of the repository's fallback-search test, built by two
`Index` calls against a state with embeddings disabled (so no embedding is
attached), mirroring `TestIndexingAndFallbackSearch`. -/
def testState : MuState :=
  (Index (fun s => s) (fun _ => .netErr)
    (Index (fun s => s) (fun _ => .netErr) ⟨[], [], false⟩ "1" "news"
      "Bitcoin hits new high" "Crypto markets are rallying today." none
      0).state "2" "news" "Apple releases new iPhone"
    "Tech giant reveals latest gadget." none 1).state

/-- C6: Lexical fallback scoring: whenever vector scoring is inactive for a
`Search` call, every entry scores `3.0` on a title substring hit of the
lower-cased query, else `1.0` on a content substring hit, else `0` (excluded);
with embeddings disabled, over the two test entries, `Search "Bitcoin" 10`
returns only entry `"1"` and `Search "iPhone" 10` returns only entry `"2"`. -/
theorem C6_lexical_fallback :
    (∀ (f : ℚ → ℚ) (entry : IndexEntry) (ql : String) (qe : List ℚ),
      rankEntry f entry ql qe false =
        (if goContains entry.TitleLower ql = true then (3 : ℚ)
          else if goContains entry.ContentLower ql = true then 1 else 0)) ∧
    (∀ (f : ℚ → ℚ) (provider : String → ProviderResp) (st : MuState)
      (query : String) (limit : Int), st.embeddingsEnabled = false →
      (Search f provider st query limit).results =
        searchSnapshot f (st.index.map Prod.snd) (goToLower query) [] false
          limit) ∧
    (∀ (f : ℚ → ℚ) (provider : String → ProviderResp) (st : MuState)
      (query : String) (limit : Int),
      (getEmbedding provider st query).value = none →
      (Search f provider st query limit).results =
        searchSnapshot f (st.index.map Prod.snd) (goToLower query) [] false
          limit) ∧
    (∀ (f : ℚ → ℚ) (provider : String → ProviderResp) (st : MuState)
      (query : String) (limit : Int),
      (getEmbedding provider st query).value = some [] →
      (Search f provider st query limit).results =
        searchSnapshot f (st.index.map Prod.snd) (goToLower query) [] false
          limit) ∧
    ((Search (fun q => q) (fun _ => .netErr) testState "Bitcoin"
      10).results.map IndexEntry.ID = ["1"]) ∧
    ((Search (fun q => q) (fun _ => .netErr) testState "iPhone"
      10).results.map IndexEntry.ID = ["2"]) := by
  refine ⟨?_, ?_, ?_, ?_, by decide, by decide⟩
  · intro f entry ql qe
    simp only [rankEntry]
    have hcond : ¬(false = true ∧ 0 < entry.Embedding.length ∧
        qe.length = entry.Embedding.length) := by simp
    rw [if_neg hcond, if_pos (rfl : (0 : ℚ) = 0)]
    rfl
  · intro f provider st query limit hen
    rw [Search_disabled f provider st query limit hen]
  · intro f provider st query limit hv
    exact Search_query_embed_fails f provider st query limit hv
  · intro f provider st query limit hv
    exact Search_query_embed_empty f provider st query limit hv

theorem C6_lexical_fallback_witness :
    testState.embeddingsEnabled = false ∧
    (Search (fun q => q) (fun _ => .netErr) testState "Bitcoin" 10).results =
      searchSnapshot (fun q => q) (testState.index.map Prod.snd)
        (goToLower "Bitcoin") [] false 10 :=
  ⟨by decide, C6_lexical_fallback.2.1 (fun q => q) (fun _ => .netErr)
    testState "Bitcoin" 10 (by decide)⟩

/-- C8: Empty-corpus short circuit: for every query string and every limit,
if the entry store contains no entries then `Search` returns an empty
sequence and makes no embedding-provider call. -/
theorem C8_empty_corpus (f : ℚ → ℚ) (provider : String → ProviderResp)
    (st : MuState) (query : String) (limit : Int) (h : st.index = []) :
    (Search f provider st query limit).results = [] ∧
    (Search f provider st query limit).attempted = false := by
  rw [Search_empty f provider st query limit h]
  exact ⟨rfl, rfl⟩

theorem C8_empty_corpus_witness :
    (⟨[], [], true⟩ : MuState).index = [] ∧
    (Search (fun q => q) (fun _ => ProviderResp.ok [1])
        (⟨[], [], true⟩ : MuState) "anything" 5).results = [] ∧
    (Search (fun q => q) (fun _ => ProviderResp.ok [1])
        (⟨[], [], true⟩ : MuState) "anything" 5).attempted = false := by
  refine ⟨rfl, ?_⟩
  have h := C8_empty_corpus (fun q => q) (fun _ => ProviderResp.ok [1])
    (⟨[], [], true⟩ : MuState) "anything" 5 rfl
  exact h

/-- C3: Top-K selection correctness: for every corpus and every limit
`k > 0`, the search returns at most `k` entries, ordered by non-increasing
score, and no positively-scoring candidate outside the returned set has a
strictly higher score than the lowest-scored returned entry; for `limit ≤ 0`
all positively-scoring candidates are returned (the heap bound becomes the
candidate count); and `Search`'s result list is exactly such a
`searchSnapshot` selection over its snapshot. -/
theorem C3_topk :
    (∀ (f : ℚ → ℚ) (snapshot : List IndexEntry) (ql : String) (qe : List ℚ)
      (uv : Bool) (limit : Int), 0 < limit →
      (searchSnapshot f snapshot ql qe uv limit).length ≤ limit.toNat) ∧
    (∀ (f : ℚ → ℚ) (snapshot : List IndexEntry) (ql : String) (qe : List ℚ)
      (uv : Bool) (limit : Int),
      (searchSnapshot f snapshot ql qe uv limit).Pairwise
        (fun a b => rankEntry f b ql qe uv ≤ rankEntry f a ql qe uv)) ∧
    (∀ (f : ℚ → ℚ) (snapshot : List IndexEntry) (ql : String) (qe : List ℚ)
      (uv : Bool) (limit : Int),
      ∀ e ∈ snapshot, 0 < rankEntry f e ql qe uv →
        e ∉ searchSnapshot f snapshot ql qe uv limit →
        ∀ x ∈ searchSnapshot f snapshot ql qe uv limit,
          rankEntry f e ql qe uv ≤ rankEntry f x ql qe uv) ∧
    (∀ (f : ℚ → ℚ) (snapshot : List IndexEntry) (ql : String) (qe : List ℚ)
      (uv : Bool) (limit : Int), limit ≤ 0 →
      (searchSnapshot f snapshot ql qe uv limit).Perm
        (snapshot.filter (fun e => decide (0 < rankEntry f e ql qe uv)))) ∧
    (∀ (f : ℚ → ℚ) (provider : String → ProviderResp) (st : MuState)
      (query : String) (limit : Int),
      ∃ (qe : List ℚ) (uv : Bool),
        (Search f provider st query limit).results =
          searchSnapshot f (st.index.map Prod.snd) (goToLower query) qe uv
            limit) := by
  refine ⟨?_, ?_, ?_, ?_, ?_⟩
  · intro f snapshot ql qe uv limit hpos
    exact searchSnapshot_length_le f snapshot ql qe uv hpos
  · intro f snapshot ql qe uv limit
    exact searchSnapshot_sorted f snapshot ql qe uv limit
  · intro f snapshot ql qe uv limit
    exact searchSnapshot_min_bound f snapshot ql qe uv limit
  · intro f snapshot ql qe uv limit hle
    exact searchSnapshot_all_of_nonpos f snapshot ql qe uv hle
  · intro f provider st query limit
    exact Search_results_eq f provider st query limit

theorem C3_topk_witness :
    (0 : Int) < 1 ∧
    (searchSnapshot (fun q => q) (testState.index.map Prod.snd) "bitcoin" []
      false 1).length ≤ (1 : Int).toNat :=
  ⟨by decide, C3_topk.1 (fun q => q) (testState.index.map Prod.snd) "bitcoin"
    [] false 1 (by decide)⟩


/-- C10: Empty-query behaviour: the empty query is never rejected — since
`getEmbedding` fails on whitespace-only input (with no network attempt),
vector scoring is off for the call, and since every string contains the empty
substring every entry receives the title score `3.0`; so for every non-empty
store, `Search "" k` returns exactly `min k (corpus size)` entries when
`k > 0`, and all entries when `k ≤ 0`. -/
theorem C10_empty_query :
    (∀ (provider : String → ProviderResp) (st : MuState) (text : String),
      goTrim text = "" →
      (getEmbedding provider st text).value = none ∧
      (getEmbedding provider st text).attempted = false) ∧
    (∀ (f : ℚ → ℚ) (provider : String → ProviderResp) (st : MuState)
      (limit : Int), st.index ≠ [] → 0 < limit →
      (Search f provider st "" limit).results.length =
        min limit.toNat st.index.length) ∧
    (∀ (f : ℚ → ℚ) (provider : String → ProviderResp) (st : MuState)
      (limit : Int), limit ≤ 0 →
      (Search f provider st "" limit).results.Perm
        (st.index.map Prod.snd)) := by
  have hv : ∀ (provider : String → ProviderResp) (st : MuState),
      (getEmbedding provider st "").value = none := by
    intro provider st
    rw [getEmbedding_emptyText provider st "" rfl]
  have hresults : ∀ (f : ℚ → ℚ) (provider : String → ProviderResp)
      (st : MuState) (limit : Int),
      (Search f provider st "" limit).results =
        searchSnapshot f (st.index.map Prod.snd) "" [] false limit := by
    intro f provider st limit
    have h := Search_query_embed_fails f provider st "" limit
      (hv provider st)
    rw [h]
    rfl
  have hfilter : ∀ (f : ℚ → ℚ) (l : List IndexEntry),
      l.filter (fun e => decide (0 < rankEntry f e "" [] false)) = l := by
    intro f l
    apply List.filter_eq_self.mpr
    intro a _
    rw [rankEntry_empty_query f a []]
    norm_num
  refine ⟨?_, ?_, ?_⟩
  · intro provider st text htr
    rw [getEmbedding_emptyText provider st text htr]
    exact ⟨rfl, rfl⟩
  · intro f provider st limit hne hpos
    rw [hresults f provider st limit]
    have hlen : ¬(st.index.map Prod.snd).length = 0 := by
      simp [List.length_eq_zero, hne]
    rw [searchSnapshot_eq f (st.index.map Prod.snd) "" [] false limit hlen,
      List.length_map, List.length_reverse,
      searchFold_length f "" [] false _ (st.index.map Prod.snd) [] (by simp),
      hfilter f (st.index.map Prod.snd)]
    simp only [List.length_nil, Nat.zero_add, List.length_map]
    split
    · rename_i hcond
      rcases hcond with hcond | hcond
      · omega
      · omega
    · rename_i hcond
      omega
  · intro f provider st limit hle
    rw [hresults f provider st limit]
    have h := searchSnapshot_all_of_nonpos f (st.index.map Prod.snd) "" []
      false hle
    rw [hfilter f (st.index.map Prod.snd)] at h
    exact h

theorem C10_empty_query_witness :
    testState.index ≠ [] ∧ (0 : Int) < 1 ∧
    (Search (fun q => q) (fun _ => .netErr) testState "" 1).results.length =
      min (1 : Int).toNat testState.index.length :=
  ⟨by decide, by decide, C10_empty_query.2.1 (fun q => q) (fun _ => .netErr)
    testState 1 (by decide) (by decide)⟩


/-- C2: Dedup no-op on re-index: when the store already holds an entry under
`id` with equal type, title, content, deeply-equal metadata and a non-empty
embedding, `Index` leaves the state completely unchanged, makes no
embedding-provider call and does not schedule persistence; hence a fresh
`Index` followed by an identical call (the provider succeeding with a
non-empty vector on the first) produces exactly one provider call total —
the second call is a no-op. -/
theorem C2_dedup_noop :
    (∀ (hashFn : String → String) (provider : String → ProviderResp)
      (st : MuState) (id ty title content : String) (md : Option MetaMap)
      (now : ℕ) (ex : IndexEntry),
      lookupAssoc st.index id = some ex → ex.EntryType = ty →
      ex.Title = title → ex.Content = content → ex.Metadata = md →
      ex.Embedding ≠ [] →
      Index hashFn provider st id ty title content md now =
        ⟨st, false, false, false⟩) ∧
    (∀ (hashFn : String → String) (provider : String → ProviderResp)
      (st : MuState) (id ty title content : String) (md : Option MetaMap)
      (now₁ now₂ : ℕ) (v : List ℚ),
      lookupAssoc st.index id = none →
      st.embeddingsEnabled = true →
      ¬goTrim (textToEmbed title content) = "" →
      embedCacheHit st (goTrim (textToEmbed title content)) = none →
      provider (textToEmbed title content) = .ok v → v ≠ [] →
      (Index hashFn provider st id ty title content md now₁).attempted =
        true ∧
      Index hashFn provider
          (Index hashFn provider st id ty title content md now₁).state
          id ty title content md now₂ =
        ⟨(Index hashFn provider st id ty title content md now₁).state,
          false, false, false⟩) := by
  constructor
  · intro hashFn provider st id ty title content md now ex hex h1 h2 h3 h4 h5
    exact Index_noop hashFn provider st id ty title content md now ex hex
      h1 h2 h3 h4 (List.length_pos.mpr h5)
  · intro hashFn provider st id ty title content md now₁ now₂ v hex hen htr
      hc hp hv
    have hvpos : 0 < v.length := List.length_pos.mpr hv
    have h1 : Index hashFn provider st id ty title content md now₁ =
        ⟨⟨updateAssoc (getEmbedding provider st
              (textToEmbed title content)).state.index id
            (builtEntry hashFn id ty title content md now₁
              ((getEmbedding provider st
                (textToEmbed title content)).value.getD [])),
          (getEmbedding provider st
            (textToEmbed title content)).state.embeddingCache,
          (getEmbedding provider st
            (textToEmbed title content)).state.embeddingsEnabled⟩,
        (getEmbedding provider st (textToEmbed title content)).attempted,
        (getEmbedding provider st (textToEmbed title content)).logged,
        true⟩ :=
      (Index_eq_indexStore_of_none hashFn provider st id ty title content md
        now₁ hex).trans (indexStore_eq_call hashFn provider st none id ty
        title content md now₁ trivial)
    have hg := getEmbedding_ok provider st (textToEmbed title content) v hen
      htr hc hp
    have hb : builtEntry hashFn id ty title content md now₁ v =
        { ID := id, EntryType := ty, Title := title,
          TitleLower := goToLower title, Content := content,
          ContentLower := goToLower content, Metadata := md, Embedding := v,
          EmbeddingHash := hashFn (textToEmbed title content),
          IndexedAt := now₁ } := by
      unfold builtEntry
      rw [if_pos hvpos]
    have hstate : (Index hashFn provider st id ty title content md
        now₁).state =
        ⟨updateAssoc st.index id
          (builtEntry hashFn id ty title content md now₁ v),
        updateAssoc st.embeddingCache (goTrim (textToEmbed title content)) v,
        st.embeddingsEnabled⟩ := by
      rw [h1, hg]
      rfl
    constructor
    · rw [h1, hg]
    · rw [hstate]
      exact Index_noop hashFn provider _ id ty title content md now₂
        (builtEntry hashFn id ty title content md now₁ v)
        (lookupAssoc_updateAssoc_self _ _ _)
        (by rw [hb]) (by rw [hb]) (by rw [hb]) (by rw [hb])
        (by rw [hb]; simpa using hvpos)

theorem C2_dedup_noop_witness :
    lookupAssoc (⟨[], [], true⟩ : MuState).index "1" = none ∧
    (Index (fun s => s) (fun _ => ProviderResp.ok [1])
      (⟨[], [], true⟩ : MuState) "1" "news" "t" "c" none 0).attempted =
      true ∧
    Index (fun s => s) (fun _ => ProviderResp.ok [1])
        (Index (fun s => s) (fun _ => ProviderResp.ok [1])
          (⟨[], [], true⟩ : MuState) "1" "news" "t" "c" none 0).state
        "1" "news" "t" "c" none 1 =
      ⟨(Index (fun s => s) (fun _ => ProviderResp.ok [1])
          (⟨[], [], true⟩ : MuState) "1" "news" "t" "c" none 0).state,
        false, false, false⟩ :=
  ⟨rfl, C2_dedup_noop.2 (fun s => s) (fun _ => ProviderResp.ok [1])
    ⟨[], [], true⟩ "1" "news" "t" "c" none 0 1 [1] rfl rfl (by decide)
    rfl rfl (by decide)⟩

/-- C5: Embedding reuse on unchanged text: when the existing entry under the
same id has a non-empty embedding and its stored hash equals the hash of the
new call's embedding source text (in particular when only metadata changed),
after the call the entry under the id carries the existing embedding and hash
unchanged and no embedding-provider call is made. -/
theorem C5_embedding_reuse (hashFn : String → String)
    (provider : String → ProviderResp) (st : MuState)
    (id ty title content : String) (md : Option MetaMap) (now : ℕ)
    (ex : IndexEntry) (hex : lookupAssoc st.index id = some ex)
    (hne : ex.Embedding ≠ [])
    (hh : ex.EmbeddingHash = hashFn (textToEmbed title content)) :
    (Index hashFn provider st id ty title content md now).attempted = false ∧
    ∃ e', lookupAssoc (Index hashFn provider st id ty title content md
        now).state.index id = some e' ∧
      e'.Embedding = ex.Embedding ∧ e'.EmbeddingHash = ex.EmbeddingHash := by
  have hpos : 0 < ex.Embedding.length := List.length_pos.mpr hne
  by_cases hsame : ex.EntryType = ty ∧ ex.Title = title ∧
      ex.Content = content ∧ ex.Metadata = md ∧ 0 < ex.Embedding.length
  · rw [Index_noop hashFn provider st id ty title content md now ex hex
      hsame.1 hsame.2.1 hsame.2.2.1 hsame.2.2.2.1 hsame.2.2.2.2]
    exact ⟨rfl, ex, hex, rfl, rfl⟩
  · rw [Index_eq_indexStore_of_changed hashFn provider st id ty title content
      md now ex hex hsame,
      indexStore_eq_reuse hashFn provider st ex id ty title content md now
        ⟨hh, hpos⟩]
    refine ⟨rfl, builtEntry hashFn id ty title content md now ex.Embedding,
      lookupAssoc_updateAssoc_self _ _ _, ?_, ?_⟩
    · unfold builtEntry
      rw [if_pos hpos]
    · unfold builtEntry
      rw [if_pos hpos]
      exact hh.symm

/-- A sample already-embedded entry whose stored hash matches the source text
of a metadata-only re-index, for exercising the reuse path. -/
def reuseEntry : IndexEntry :=
  { ID := "1", EntryType := "news", Title := "t", TitleLower := "t",
    Content := "c", ContentLower := "c", Metadata := none, Embedding := [1],
    EmbeddingHash := textToEmbed "t" "c", IndexedAt := 0 }

def reuseState : MuState := ⟨[("1", reuseEntry)], [], true⟩

theorem C5_embedding_reuse_witness :
    (Index (fun s => s) (fun _ => ProviderResp.netErr) reuseState
      "1" "news" "t" "c" (some []) 1).attempted = false :=
  (C5_embedding_reuse (fun s => s) (fun _ => ProviderResp.netErr) reuseState
    "1" "news" "t" "c" (some []) 1 reuseEntry rfl (by decide) rfl).1


/-- C7: Embedding-hash invariant: in every reachable state of the entry
store, every entry whose embedding is non-empty has an `EmbeddingHash` equal
to the content hash of its embedding source text (the title, joined with a
single space to the first up-to-500 characters of content when content is
non-empty, just the title otherwise); every operation (`Index`, `ClearIndex`,
`Search`, `GetByID`, `GetByType`) preserves this. -/
theorem C7_embed_hash_invariant (hashFn : String → String) (st : MuState)
    (h : Reachable hashFn st) : embedHashInv hashFn st := by
  induction h with
  | init b =>
      intro p hp
      exact absurd hp (List.not_mem_nil p)
  | step st f op hr ih =>
      cases op with
      | opIndex provider id ty title content md now =>
          exact Index_preserves hashFn provider st id ty title content md
            now ih
      | opSearch provider query limit =>
          intro p hp
          rcases Search_shape f provider st query limit with ⟨he, _, _⟩ |
            ⟨he, _, _⟩
          · rw [show (applyOp hashFn f st
                (Op.opSearch provider query limit)).1 =
                (Search f provider st query limit).state from rfl, he] at hp
            exact ih p hp
          · rw [show (applyOp hashFn f st
                (Op.opSearch provider query limit)).1 =
                (Search f provider st query limit).state from rfl, he,
              getEmbedding_index] at hp
            exact ih p hp
      | opGetEmbedding provider text =>
          intro p hp
          rw [show (applyOp hashFn f st (Op.opGetEmbedding provider text)).1 =
              (getEmbedding provider st text).state from rfl,
            getEmbedding_index] at hp
          exact ih p hp
      | opClear =>
          intro p hp
          exact absurd hp (List.not_mem_nil p)
      | opGetByID id => exact ih
      | opGetByType ty limit => exact ih

theorem C7_embed_hash_invariant_witness :
    embedHashInv (fun s => s)
      (applyOp (fun s => s) (fun q => q) ⟨[], [], true⟩
        (Op.opIndex (fun _ => ProviderResp.ok [1]) "1" "news" "t" "c" none
          0)).1 :=
  C7_embed_hash_invariant (fun s => s) _
    (Reachable.step ⟨[], [], true⟩ (fun q => q)
      (Op.opIndex (fun _ => ProviderResp.ok [1]) "1" "news" "t" "c" none 0)
      (Reachable.init true))

/-- C4: Circuit breaker latch: a network-level provider failure during
`getEmbedding` turns the process-wide embeddings flag off (returning an error,
with the disable log firing); no operation ever turns the flag back on; once
the flag is off, `getEmbedding` returns an error immediately with no network
attempt, `Search` falls back to lexical scoring with no network attempt, and
`Index` makes no network attempt; non-network failures (non-200 status,
malformed body) return an error without touching the flag; and the disabling
transition fires (and logs) at most once over any operation sequence — and
only on a true-to-false transition, compare-and-swap style. -/
theorem C4_circuit_breaker :
    (∀ (provider : String → ProviderResp) (st : MuState) (text : String),
      st.embeddingsEnabled = true → ¬goTrim text = "" →
      embedCacheHit st (goTrim text) = none → provider text = .netErr →
      getEmbedding provider st text =
        ⟨none, ⟨st.index, st.embeddingCache, false⟩, true, true⟩) ∧
    (∀ (hashFn : String → String) (f : ℚ → ℚ) (st : MuState) (op : Op),
      st.embeddingsEnabled = false →
      (applyOp hashFn f st op).1.embeddingsEnabled = false) ∧
    (∀ (provider : String → ProviderResp) (st : MuState) (text : String),
      st.embeddingsEnabled = false →
      getEmbedding provider st text = ⟨none, st, false, false⟩) ∧
    (∀ (f : ℚ → ℚ) (provider : String → ProviderResp) (st : MuState)
      (query : String) (limit : Int), st.embeddingsEnabled = false →
      Search f provider st query limit =
        ⟨searchSnapshot f (st.index.map Prod.snd) (goToLower query) [] false
          limit, st, false, false⟩) ∧
    (∀ (hashFn : String → String) (provider : String → ProviderResp)
      (st : MuState) (id ty title content : String) (md : Option MetaMap)
      (now : ℕ), st.embeddingsEnabled = false →
      (Index hashFn provider st id ty title content md now).attempted =
        false) ∧
    (∀ (provider : String → ProviderResp) (st : MuState) (text : String),
      st.embeddingsEnabled = true → ¬goTrim text = "" →
      embedCacheHit st (goTrim text) = none →
      (provider text = .badStatus ∨ provider text = .badBody) →
      getEmbedding provider st text = ⟨none, st, true, false⟩) ∧
    (∀ (hashFn : String → String) (f : ℚ → ℚ) (st : MuState) (op : Op),
      (applyOp hashFn f st op).2 = true →
      st.embeddingsEnabled = true ∧
        (applyOp hashFn f st op).1.embeddingsEnabled = false) ∧
    (∀ (hashFn : String → String) (f : ℚ → ℚ) (ops : List Op)
      (st : MuState), (runOps hashFn f ops st).2 ≤ 1) ∧
    (∀ (hashFn : String → String) (provider : String → ProviderResp)
      (st : MuState) (id ty title content : String) (md : Option MetaMap)
      (now : ℕ), st.embeddingsEnabled = false →
      lookupAssoc st.index id = none →
      ∃ e', lookupAssoc (Index hashFn provider st id ty title content md
          now).state.index id = some e' ∧ e'.Embedding = []) := by
  refine ⟨?_, ?_, ?_, ?_, ?_, ?_, ?_, ?_, ?_⟩
  · intro provider st text hen htr hc hp
    exact getEmbedding_netErr provider st text hen htr hc hp
  · intro hashFn f st op h
    exact applyOp_disabled hashFn f st op h
  · intro provider st text h
    exact getEmbedding_disabled provider st text h
  · intro f provider st query limit h
    exact Search_disabled f provider st query limit h
  · intro hashFn provider st id ty title content md now h
    rcases Index_flag_shape hashFn provider st id ty title content md now
      with ⟨_, _, ha⟩ | ⟨_, _, ha⟩
    · exact ha
    · rw [ha, getEmbedding_disabled provider st (textToEmbed title content) h]
  · intro provider st text hen htr hc hp
    rcases hp with hp | hp
    · exact getEmbedding_badStatus provider st text hen htr hc hp
    · exact getEmbedding_badBody provider st text hen htr hc hp
  · intro hashFn f st op h
    exact applyOp_logged_trip hashFn f st op h
  · intro hashFn f ops st
    exact runOps_count_le_one hashFn f ops st
  · intro hashFn provider st id ty title content md now hen hex
    rw [Index_eq_indexStore_of_none hashFn provider st id ty title content
      md now hex,
      indexStore_eq_call hashFn provider st none id ty title content md now
        trivial,
      getEmbedding_disabled provider st (textToEmbed title content) hen]
    refine ⟨builtEntry hashFn id ty title content md now
      ((none : Option (List ℚ)).getD []), lookupAssoc_updateAssoc_self _ _ _,
      ?_⟩
    rfl

theorem C4_circuit_breaker_witness :
    (⟨[], [], true⟩ : MuState).embeddingsEnabled = true ∧
    getEmbedding (fun _ => ProviderResp.netErr) (⟨[], [], true⟩ : MuState)
        "hello" =
      ⟨none, ⟨[], [], false⟩, true, true⟩ :=
  ⟨rfl, C4_circuit_breaker.1 (fun _ => ProviderResp.netErr) ⟨[], [], true⟩
    "hello" rfl (by decide) rfl rfl⟩

end Mu
